import Mathlib

/-!
Verification development for the JSON parse/serialize core of `src/json_object.c`
(rejson). The tree node type, the `jsonsl` streaming tokenizer, the `sds` buffer
utility and libc number formatting are external collaborators not present under
`src/`; where a definition models one of them its doc comment says so and follows
the specification's words. Bytes are modelled as `Nat` values below 256; buffers
handed to `CreateNodeFromJSON` are total functions `Nat → Nat` together with a
length, so that the out-of-bounds behaviour of the leading-whitespace scan is
expressible. Doubles are modelled as exact rationals; the printf-style textual
renderings `%e` / `%.17g` are opaque placeholders never relied on by a theorem,
while the branch choosing among the three renderings is translated exactly.
-/

namespace JsonObj

/-- Allowed whitespace per the `_AllowedWhitespace` table (tab, LF, CR, space)
together with the `c == ' '` short-circuit of `_IsAllowedWhitespace`. -/
def isAllowedWhitespace (c : Nat) : Bool :=
  c = 32 || (c % 256 = 9 || c % 256 = 10 || c % 256 = 13 || c % 256 = 32)

/-- ASCII decimal digit test. -/
def isDigitB (c : Nat) : Bool := 48 ≤ c && c ≤ 57

/-- Model of C-locale `isprint` on a byte handed over as a (signed) `char`:
true exactly for 0x20..0x7E; bytes at or above 0x80 arrive as negative `char`
values for which glibc's `isprint` answers false. -/
def isprintB (c : Nat) : Bool := 32 ≤ c && c ≤ 126

/-- The `_AllowedEscapes` table: bytes usable after a backslash
(`"`, `/`, `\`, `b`, `f`, `n`, `r`, `t`, `u`). -/
def allowedEscape (c : Nat) : Bool :=
  c = 34 || c = 47 || c = 92 || c = 98 || c = 102 || c = 110 || c = 114 || c = 116 || c = 117

/-- Lower-case hex digit for a value below 16, as emitted by printf `%04x`. -/
def hexDig (n : Nat) : Nat := if n < 10 then 48 + n else 87 + n

/-- Value of a hex digit byte, if it is one. -/
def hexVal (c : Nat) : Option Nat :=
  if 48 ≤ c ∧ c ≤ 57 then some (c - 48)
  else if 97 ≤ c ∧ c ≤ 102 then some (c - 97 + 10)
  else if 65 ≤ c ∧ c ≤ 70 then some (c - 65 + 10)
  else none

/-- Bytes of a `String` (used only to write fixtures legibly). -/
def strB (s : String) : List Nat := s.toList.map Char.toNat

mutual
/-- The in-memory tree value: the `Node` tagged union of the repository.
`Node.null` models the NULL pointer the code stores in owning slots for JSON
nulls (the `N_NULL` enum case itself is never constructed). A dictionary owns
its entries as `keyval` children, exactly as `N_DICT` owns `N_KEYVAL` nodes;
a pending key's value slot holds `Node.null` until it is filled in. Doubles
are modelled as exact rationals. Children are kept in the mutually defined
`NodeList` so that every recursion over trees is structural. -/
inductive Node where
  | null
  | bool (b : Bool)
  | int (i : Int)
  | num (v : ℚ)
  | str (s : List Nat)
  | keyval (key : List Nat) (val : Node)
  | dict (entries : NodeList)
  | arr (elems : NodeList)
deriving Repr, DecidableEq

/-- A sequence of owned child nodes. -/
inductive NodeList where
  | nil
  | cons (hd : Node) (tl : NodeList)
deriving Repr, DecidableEq
end

/-- Number of children (`dictval.len` / `arrval.len`). -/
def NodeList.length : NodeList → Nat
  | .nil => 0
  | .cons _ t => t.length + 1

/-- Append one child at the end (`Node_ArrayAppend`). -/
def NodeList.append1 : NodeList → Node → NodeList
  | .nil, n => .cons n .nil
  | .cons h t, n => .cons h (t.append1 n)

/-- Concatenation of child lists (proof-side helper). -/
def NodeList.cat : NodeList → NodeList → NodeList
  | .nil, ys => ys
  | .cons h t, ys => .cons h (t.cat ys)

/-- Repeated `append1` of every element of the second list (proof-side helper;
the shape in which a container accumulates its children during parsing). -/
def NodeList.appendAll : NodeList → NodeList → NodeList
  | acc, .nil => acc
  | acc, .cons e t => NodeList.appendAll (acc.append1 e) t

/-! ### Decimal rendering and C number conversion -/

/-- Division loop producing big-endian decimal digit bytes in front of `acc`;
the fuel argument only bounds the recursion (any fuel at or above the number
of digits gives the same result). -/
def natDecGo : Nat → Nat → List Nat → List Nat
  | 0, _, acc => acc
  | fuel + 1, n, acc => if n = 0 then acc else natDecGo fuel (n / 10) ((48 + n % 10) :: acc)

/-- Big-endian decimal digit bytes of a natural number (no sign). -/
def natDec (n : Nat) : List Nat :=
  if n = 0 then [48] else natDecGo n n []

/-- Decimal rendering of a signed integer, as `sdscatfmt "%I"` emits it. -/
def intDec (i : Int) : List Nat :=
  if i < 0 then 45 :: natDec i.natAbs else natDec i.natAbs

/-- Horner value of a big-endian list of decimal digit bytes. -/
def digitsVal (ds : List Nat) : Nat := ds.foldl (fun a d => a * 10 + (d - 48)) 0

def maxI64 : Int := 2 ^ 63 - 1
def minI64 : Int := -(2 ^ 63)

/-- Model of C `strtoll(tok, &eptr, 10)` restricted to the token slice: returns
(value, number of bytes consumed, range-error flag). An optional sign followed by
no digit consumes nothing (eptr = nptr); out-of-range input clamps to
`LLONG_MAX`/`LLONG_MIN` with `errno = ERANGE`. The byte after a lexer numeric
token is never a digit, so conversion never reads past the slice. -/
def strtollM (tok : List Nat) : Int × Nat × Bool :=
  let neg := tok.headD 0 = 45
  let signLen := if tok.headD 0 = 45 ∨ tok.headD 0 = 43 then 1 else 0
  let ds := (tok.drop signLen).takeWhile (fun c => isDigitB c)
  if ds.isEmpty then (0, 0, false)
  else
    let v : Int := if neg then -(digitsVal ds : Int) else (digitsVal ds : Int)
    if v > maxI64 then (maxI64, signLen + ds.length, true)
    else if v < minI64 then (minI64, signLen + ds.length, true)
    else (v, signLen + ds.length, false)

/-- The integer arm of the number classifier in `popCallback`: accept only when
`strtoll` consumed the whole token without a range error. -/
def classifyInt (tok : List Nat) : Option Int :=
  let r := strtollM tok
  if (r.2.2 = true ∧ (r.1 = maxI64 ∨ r.1 = minI64)) ∨ r.2.1 ≠ tok.length then none
  else some r.1

/-- Modelled from the spec: C `strtod` on a numeric token slice (the strict
whole-token rule of §4.2). Parses `[-]digits[.digits][(e|E)[sign]digits]` into an
exact rational; anything else, or an empty digit part, fails. NaN/overflow of
IEEE doubles is not modelled; no theorem depends on this arm. -/
def strtodM (tok : List Nat) : Option ℚ :=
  let neg := tok.headD 0 = 45
  let t1 := if tok.headD 0 = 45 ∨ tok.headD 0 = 43 then tok.drop 1 else tok
  let ip := t1.takeWhile (fun c => isDigitB c)
  let t2 := t1.drop ip.length
  if ip.isEmpty then none else
  let fp := if t2.headD 0 = 46 then (t2.drop 1).takeWhile (fun c => isDigitB c) else []
  let t3 := if t2.headD 0 = 46 then t2.drop (1 + fp.length) else t2
  let hasE := t3.headD 0 = 101 ∨ t3.headD 0 = 69
  let t4 := if hasE then t3.drop 1 else t3
  let eneg := t4.headD 0 = 45
  let t5 := if hasE ∧ (t4.headD 0 = 45 ∨ t4.headD 0 = 43) then t4.drop 1 else t4
  let ep := if hasE then t5.takeWhile (fun c => isDigitB c) else []
  let t6 := t5.drop ep.length
  if hasE ∧ ep.isEmpty then none else
  if t6 ≠ [] then none else
  let mag : ℚ := (digitsVal ip : ℚ) + (digitsVal fp : ℚ) / (10 : ℚ) ^ fp.length
  let scaled : ℚ := if eneg then mag / (10 : ℚ) ^ digitsVal ep else mag * (10 : ℚ) ^ digitsVal ep
  some (if neg then -scaled else scaled)

/-! ### String escaping (serialize path) and unescaping (parse path) -/

/-- Escape of one string byte, translated from the `switch` of
`_JSONSerialize_StringValue`: two-character escapes for quote, backslash,
solidus, backspace, formfeed, newline, carriage return, tab; raw emission for
printable bytes above 31; `\u00XX` (printf `\u%04x` on an unsigned char)
otherwise. -/
def escByte (c : Nat) : List Nat :=
  if c = 34 ∨ c = 92 then [92, c]
  else if c = 47 then [92, 47]
  else if c = 8 then [92, 98]
  else if c = 12 then [92, 102]
  else if c = 10 then [92, 110]
  else if c = 13 then [92, 114]
  else if c = 9 then [92, 116]
  else if 31 < c ∧ isprintB c then [c]
  else [92, 117, 48, 48, hexDig (c / 16 % 16), hexDig (c % 16)]

/-- Escaped body of a string value (the byte loop of
`_JSONSerialize_StringValue`, without the surrounding quotes). -/
def escapeStr (s : List Nat) : List Nat := s.flatMap escByte

/-- Byte produced for an unescaped `\u` code point (UTF-8 style spill for
values above one byte; values up to 0xFF give the byte itself). -/
def ucharBytes (v : Nat) : List Nat :=
  if v ≤ 255 then [v]
  else if v ≤ 2047 then [192 + v / 64, 128 + v % 64]
  else [224 + v / 4096, 128 + v / 64 % 64, 128 + v % 64]

/-- Replacement byte for an allowed two-character escape. -/
def unescMap (c : Nat) : Nat :=
  if c = 98 then 8 else if c = 102 then 12 else if c = 110 then 10
  else if c = 114 then 13 else if c = 116 then 9 else c

/-- Modelled from the spec: `jsonsl_util_unescape` over a token body (quotes
already excluded), driven by the `_AllowedEscapes` table — replace allowed
two-character escapes, decode `\uXXXX` sequences, fail on a disallowed or
malformed escape (§4.3). A successful unescape never returns an empty
result for a token that contained an escape. -/
def unesc : List Nat → Except Unit (List Nat)
  | [] => .ok []
  | c :: rest =>
    if c = 92 then
      match rest with
      | [] => .error ()
      | e :: rest2 =>
        if e = 117 then
          match rest2 with
          | h1 :: h2 :: h3 :: h4 :: rest3 =>
            match hexVal h1, hexVal h2, hexVal h3, hexVal h4 with
            | some a, some b, some c2, some d =>
              (fun t => ucharBytes (((a * 16 + b) * 16 + c2) * 16 + d) ++ t) <$> unesc rest3
            | _, _, _, _ => .error ()
          | _ => .error ()
        else if allowedEscape e then (fun t => unescMap e :: t) <$> unesc rest2
        else .error ()
    else (fun t => c :: t) <$> unesc rest

/-! ### Serializer (translation of the `_JSONSerialize_*` family) -/

/-- Formatting options of `SerializeNodeToJSON` (`JSONSerializeOpt`); a NULL
C string and an empty one coincide after the `sdsnew`/`sdsempty` setup. -/
structure SOpt where
  indentstr : List Nat
  newlinestr : List Nat
  spacestr : List Nat
deriving Repr

/-- The `_JSONBuilderContext`: output buffer, current depth and the four
format strings (`delimstr` is precomputed as `"," ++ newlinestr`). -/
structure BCtx where
  buf : List Nat
  depth : Nat
  indentstr : List Nat
  newlinestr : List Nat
  spacestr : List Nat
  delimstr : List Nat
deriving Repr

/-- The `_JSONSerialize_Indent` macro: if the indent string is non-empty,
append it `depth` times. -/
def serIndent (b : BCtx) : BCtx :=
  if b.indentstr.length ≠ 0 then
    { b with buf := b.buf ++ (List.replicate b.depth b.indentstr).flatten }
  else b

/-- `DBL_EPSILON` = 2⁻⁵². -/
def dblEpsilon : ℚ := 1 / 2 ^ 52

/-- The three renderings a double can receive. -/
inductive NumFmt where
  | zeroDec | sci | fixed17
deriving Repr, DecidableEq

/-- The double-rendering branch of `_JSONSerialize_BeginValue`, translated
exactly: zero decimal places when `fabs(floor(v) - v) <= DBL_EPSILON` and
`fabs(v) < 1.0e60`; scientific when `fabs(v) < 1.0e-6 || fabs(v) > 1.0e9`;
fixed-point 17 significant digits otherwise. -/
def numBranch (v : ℚ) : NumFmt :=
  if |(⌊v⌋ : ℚ) - v| ≤ dblEpsilon ∧ |v| < 10 ^ 60 then .zeroDec
  else if |v| < 1 / 10 ^ 6 ∨ |v| > 10 ^ 9 then .sci
  else .fixed17

/-- Models printf `"%.0f"`: round to nearest integer and print its decimal
digits (exact whenever the value is integral, the only case the serializer
reaches it in this development's theorems). -/
def fmtZeroDec (v : ℚ) : List Nat := intDec (round v)

/-- Modelled from the spec: placeholder for libc printf `"%e"` scientific
rendering of a double; its exact digits are IEEE-754 formatting behaviour
outside the repository and no theorem depends on them. -/
def fmtSci (v : ℚ) : List Nat := strB "<sci>" ++ intDec (round v)

/-- Modelled from the spec: placeholder for libc printf `"%.17g"`; see
`fmtSci`. -/
def fmtFixed17 (v : ℚ) : List Nat := strB "<g17>" ++ intDec (round v)

/-- `_JSONSerialize_BeginValue`, translated case by case; `Node.null` is the
`if (!n)` branch emitting a literal `null`. The `N_KEYVAL` case is
`sdscatfmt "\"%s\":%s"`, whose `%s` stops at a NUL byte. -/
def serBeginValue (n : Node) (b : BCtx) : BCtx :=
  match n with
  | .null => { b with buf := b.buf ++ strB "null" }
  | .bool true => { b with buf := b.buf ++ strB "true" }
  | .bool false => { b with buf := b.buf ++ strB "false" }
  | .int i => { b with buf := b.buf ++ intDec i }
  | .num v =>
    { b with buf := b.buf ++ (match numBranch v with
        | .zeroDec => fmtZeroDec v
        | .sci => fmtSci v
        | .fixed17 => fmtFixed17 v) }
  | .str s => { b with buf := b.buf ++ [34] ++ escapeStr s ++ [34] }
  | .keyval k _ =>
    { b with buf := b.buf ++ [34] ++ k.takeWhile (fun c => c ≠ 0) ++ [34, 58] ++ b.spacestr }
  | .dict es =>
    let b1 : BCtx := { b with buf := b.buf ++ [123], depth := b.depth + 1 }
    if es.length ≠ 0 then serIndent { b1 with buf := b1.buf ++ b1.newlinestr } else b1
  | .arr es =>
    let b1 : BCtx := { b with buf := b.buf ++ [91], depth := b.depth + 1 }
    if es.length ≠ 0 then serIndent { b1 with buf := b1.buf ++ b1.newlinestr } else b1

/-- `_JSONSerialize_EndValue` (fires only for containers). -/
def serEndValue (n : Node) (b : BCtx) : BCtx :=
  match n with
  | .dict es =>
    let b1 := if es.length ≠ 0 then { b with buf := b.buf ++ b.newlinestr } else b
    let b2 := serIndent { b1 with depth := b1.depth - 1 }
    { b2 with buf := b2.buf ++ [125] }
  | .arr es =>
    let b1 := if es.length ≠ 0 then { b with buf := b.buf ++ b.newlinestr } else b
    let b2 := serIndent { b1 with depth := b1.depth - 1 }
    { b2 with buf := b2.buf ++ [93] }
  | _ => b

/-- `_JSONSerialize_ContainerDelimiter`. -/
def serDelim (b : BCtx) : BCtx :=
  serIndent { b with buf := b.buf ++ b.delimstr }

mutual
/-- Modelled from the spec: the generic depth-first tree walker
(`Node_Serializer` of the external node module) with the callback selection of
`SerializeNodeToJSON`: enter-value for every node kind (`xBegin = 0xffff`,
including absent slots), exit and between-siblings for containers only
(`xEnd = xDelim = N_DICT | N_ARRAY`); a key/value wrapper recurses into its
value after its enter event. -/
def serWalk : Node → BCtx → BCtx
  | .dict es, b => serEndValue (.dict es) (serWalkList true es (serBeginValue (.dict es) b))
  | .arr es, b => serEndValue (.arr es) (serWalkList true es (serBeginValue (.arr es) b))
  | .keyval k v, b => serWalk v (serBeginValue (.keyval k v) b)
  | n, b => serBeginValue n b

/-- Walk of a container's children; the delimiter fires before every child
except the first, i.e. once per sibling boundary. -/
def serWalkList : Bool → NodeList → BCtx → BCtx
  | _, .nil, b => b
  | first, .cons e t, b => serWalkList false t (serWalk e (if first then b else serDelim b))
end

/-- `SerializeNodeToJSON`: build the context (`delimstr = "," ++ newlinestr`),
run the walker, return the extended buffer. -/
def SerializeNodeToJSON (node : Node) (opt : SOpt) (json : List Nat) : List Nat :=
  (serWalk node { buf := json, depth := 0, indentstr := opt.indentstr,
                  newlinestr := opt.newlinestr, spacestr := opt.spacestr,
                  delimstr := [44] ++ opt.newlinestr }).buf

/-- All-empty formatting options: compact output. -/
def compactOpt : SOpt := ⟨[], [], []⟩

mutual
/-- Compact (empty indent/newline/space) serialization of a value, written
recursively; proved below to characterize `SerializeNodeToJSON` at
`compactOpt`. -/
def outV : Node → List Nat
  | .null => strB "null"
  | .bool true => strB "true"
  | .bool false => strB "false"
  | .int i => intDec i
  | .num v =>
    match numBranch v with
    | .zeroDec => fmtZeroDec v
    | .sci => fmtSci v
    | .fixed17 => fmtFixed17 v
  | .str s => [34] ++ escapeStr s ++ [34]
  | .keyval k v => [34] ++ k.takeWhile (fun c => c ≠ 0) ++ [34, 58] ++ outV v
  | .dict es => [123] ++ outList true es ++ [125]
  | .arr es => [91] ++ outList true es ++ [93]

/-- Comma-joined compact serializations of a container's children. -/
def outList : Bool → NodeList → List Nat
  | _, .nil => []
  | first, .cons e t => (if first then [] else [44]) ++ outV e ++ outList false t
end

/-! ### Parser: lexer events and the tree-building callbacks

The `jsonsl` streaming tokenizer is an external collaborator; it is modelled
from the spec as a byte-at-a-time state machine emitting push/pop structural
events over strict RFC 4627 input plus the contract the Tree Builder relies
on (`jsn->level` = number of still-open containers at end of feed,
`jsn->stack[0].nelem` = number of completed root values, stop-on-error).
The actions taken at each event are translated from `pushCallback`,
`popCallback` and `errorCallback` of `json_object.c`. -/

/-- Lexer error taxonomy (modelled from the spec's LexicalError codes). -/
inductive LexErrC where
  | garbageTrailing
  | specialExpected
  | stringOutsideContainer
  | hkeyExpected
  | colonExpected
  | commaExpected
  | invalidNumber
  | escapeInvalid
  | weirdWhitespace
  | levelsExceeded
deriving Repr, DecidableEq

/-- Modelled from the spec: `jsonsl_strerror` renders an error code as its
name for the `"ERR JSON lexer error %s at position %zd"` message. -/
def errName : LexErrC → String
  | .garbageTrailing => "GARBAGE_TRAILING"
  | .specialExpected => "SPECIAL_EXPECTED"
  | .stringOutsideContainer => "STRING_OUTSIDE_CONTAINER"
  | .hkeyExpected => "HKEY_EXPECTED"
  | .colonExpected => "COLON_EXPECTED"
  | .commaExpected => "COMMA_EXPECTED"
  | .invalidNumber => "INVALID_NUMBER"
  | .escapeInvalid => "ESCAPE_INVALID"
  | .weirdWhitespace => "WEIRD_WHITESPACE"
  | .levelsExceeded => "LEVELS_EXCEEDED"

/-- The `JsonObjectContext`: recorded error (with position, as set by
`errorCallback`) and the stack of created nodes (`nodes`/`nlen`); the head of
the list is the top of the stack, `nodes[0]` is its last element; a
`Node.null` entry is a NULL pointer pushed for a JSON null. -/
structure Ctx where
  err : Option (LexErrC × Nat) := none
  nodes : List Node := []
deriving Repr

/-- Modelled from the spec: setting a dictionary entry overwrites the previous
value when the key already exists (last-write-wins) and appends otherwise. -/
def setEntry : NodeList → List Nat → Node → NodeList
  | .nil, k, v => .cons (.keyval k v) .nil
  | .cons e rest, k, v =>
    match e with
    | .keyval k2 v2 =>
      if k2 = k then .cons (.keyval k v) rest else .cons (.keyval k2 v2) (setEntry rest k v)
    | _ => .cons e (setEntry rest k v)

/-- Modelled from the spec: `Node_DictSetKeyVal` — insert an `N_KEYVAL` node
into an `N_DICT` node; any other combination leaves the target unchanged. -/
def dictSetKV : Node → Node → Node
  | .dict es, .keyval k v => .dict (setEntry es k v)
  | d, _ => d

/-- The attachment block at the end of `popCallback` (lines 146–162): with the
just-popped value on top of the node stack and the pop not being a key, look
at the element below it — a dict parent receives the popped value via
`Node_DictSetKeyVal`, an array parent appends it, a key/value parent takes it
as its value and is then itself popped and inserted into the grandparent dict.
A stack of one or fewer entries attaches nothing (the root stays put). -/
def attachCB (ctx : Ctx) : Ctx :=
  match ctx.nodes with
  | top :: parent :: rest =>
    match parent with
    | .dict es => { ctx with nodes := dictSetKV (.dict es) top :: rest }
    | .arr es => { ctx with nodes := .arr (es.append1 top) :: rest }
    | .keyval k _ =>
      (match rest with
      | g :: rest2 => { ctx with nodes := dictSetKV g (.keyval k top) :: rest2 }
      | [] => { ctx with nodes := [] })
    | _ => ctx
  | _ => ctx

/-- The string/key arm of `popCallback`: unescape when the token carried
escapes (failing with the unescape error at the current position), then push
a string node or a key/value placeholder whose value is filled in later. -/
def popStringCB (ctx : Ctx) (isKey : Bool) (acc : List Nat) (nesc : Nat) (pos : Nat) : Ctx :=
  if nesc ≠ 0 then
    match unesc acc with
    | .error _ => { ctx with err := some (.escapeInvalid, pos) }
    | .ok tok =>
      { ctx with nodes :=
          (if isKey then Node.keyval tok .null else Node.str tok) :: ctx.nodes }
  else
    { ctx with nodes :=
        (if isKey then Node.keyval acc .null else Node.str acc) :: ctx.nodes }

/-- The numeric arm of `popCallback`: a token flagged float/exponent goes
through `strtod`, otherwise through `strtoll`, both under the strict
whole-token and range rules; failure records `JSONSL_ERROR_INVALID_NUMBER`
at the current position. -/
def popNumCB (ctx : Ctx) (acc : List Nat) (fl ex : Bool) (pos : Nat) : Ctx :=
  if fl ∨ ex then
    match strtodM acc with
    | none => { ctx with err := some (.invalidNumber, pos) }
    | some v => { ctx with nodes := Node.num v :: ctx.nodes }
  else
    match classifyInt acc with
    | none => { ctx with err := some (.invalidNumber, pos) }
    | some i => { ctx with nodes := Node.int i :: ctx.nodes }

/-- Sub-state of an in-progress numeric token (enforces the RFC 4627 number
grammar): after sign, in integer digits, after dot, in fraction digits,
after `e`/`E`, after exponent sign, in exponent digits. -/
inductive NumSub where
  | sgn | ipart | dot | frac | epart | esgn | expo
deriving Repr, DecidableEq

/-- One byte of progress inside a numeric token; `none` means the byte does
not extend the token. -/
def numStep (acc : List Nat) (sub : NumSub) (fl ex : Bool) (c : Nat) :
    Option (List Nat × NumSub × Bool × Bool) :=
  if isDigitB c then
    some (acc ++ [c],
      (match sub with
       | .sgn => .ipart | .ipart => .ipart | .dot => .frac | .frac => .frac
       | .epart => .expo | .esgn => .expo | .expo => .expo), fl, ex)
  else if c = 46 ∧ sub = .ipart then some (acc ++ [c], .dot, true, ex)
  else if (c = 101 ∨ c = 69) ∧ (sub = .ipart ∨ sub = .frac) then
    some (acc ++ [c], .epart, fl, true)
  else if (c = 43 ∨ c = 45) ∧ sub = .epart then some (acc ++ [c], .esgn, fl, ex)
  else none

/-- Whether a numeric token may legally end in this sub-state. -/
def numComplete (sub : NumSub) : Bool :=
  sub = .ipart ∨ sub = .frac ∨ sub = .expo

/-- Scanner phase: structural expectation or in-progress token. -/
inductive Phase where
  | start
  | val
  | arrFirst
  | objFirst
  | objKey
  | colon
  | commaArr
  | commaObj
  | afterRoot
  | instr (isKey : Bool) (acc : List Nat) (nesc : Nat)
  | inesc (isKey : Bool) (acc : List Nat) (nesc : Nat)
  | innum (acc : List Nat) (sub : NumSub) (fl : Bool) (ex : Bool)
  | inlit (rest : List Nat) (isNull : Bool) (tv : Bool)
deriving Repr, DecidableEq

/-- Full scanner state: phase, stack of open containers (`true` = object,
head innermost), builder context, byte position, completed root values. -/
structure MState where
  phase : Phase
  stack : List Bool
  ctx : Ctx
  pos : Nat
  rootNelem : Nat
deriving Repr

/-- `JSONSL_MAX_LEVELS`, the fixed maximum nesting depth. -/
def maxLevels : Nat := 512

/-- Phase after a completed value, by parent container. -/
def afterValPhase (s : List Bool) : Phase :=
  match s with
  | [] => .afterRoot
  | true :: _ => .commaObj
  | false :: _ => .commaArr

/-- Root-element count after a completed value (incremented at level 0). -/
def afterValNelem (s : List Bool) (r : Nat) : Nat :=
  match s with
  | [] => r + 1
  | _ => r

/-- Record a lexer error at the current position (the `errorCallback`). -/
def errAt (m : MState) (e : LexErrC) : MState :=
  { m with ctx := { m.ctx with err := some (e, m.pos) } }

/-- Open-container event: `pushCallback` pushes a fresh empty dict or array
node; exceeding the fixed depth is a depth-exceeded error. -/
def openContainer (m : MState) (isObj : Bool) : MState :=
  if m.stack.length ≥ maxLevels then errAt m .levelsExceeded
  else
    { m with stack := isObj :: m.stack,
             ctx := { m.ctx with nodes :=
               (if isObj then Node.dict .nil else Node.arr .nil) :: m.ctx.nodes },
             phase := if isObj then .objFirst else .arrFirst }

/-- Close-container event: `popCallback` on an object/list attaches the
completed container to its parent and the lexer drops a nesting level. -/
def closeContainer (m : MState) : MState :=
  let s2 := m.stack.tail
  { m with ctx := attachCB m.ctx, stack := s2,
           phase := afterValPhase s2, rootNelem := afterValNelem s2 m.rootNelem }

/-- Dispatch on the first byte of a value. -/
def valueStart (m : MState) (c : Nat) : MState :=
  if isAllowedWhitespace c then m
  else if c = 34 then { m with phase := .instr false [] 0 }
  else if c = 123 then openContainer m true
  else if c = 91 then openContainer m false
  else if c = 45 then { m with phase := .innum [45] .sgn false false }
  else if isDigitB c then { m with phase := .innum [c] .ipart false false }
  else if c = 116 then { m with phase := .inlit (strB "rue") false true }
  else if c = 102 then { m with phase := .inlit (strB "alse") false false }
  else if c = 110 then { m with phase := .inlit (strB "ull") true false }
  else errAt m .specialExpected

/-- One byte in a structural (non-token) phase. -/
def stepCore (m : MState) (c : Nat) : MState :=
  match m.phase with
  | .start =>
    if isAllowedWhitespace c then m
    else if c = 123 then openContainer m true
    else if c = 91 then openContainer m false
    else errAt m .stringOutsideContainer
  | .val => valueStart m c
  | .arrFirst => if c = 93 then closeContainer m else valueStart m c
  | .objFirst =>
    if isAllowedWhitespace c then m
    else if c = 34 then { m with phase := .instr true [] 0 }
    else if c = 125 then closeContainer m
    else errAt m .hkeyExpected
  | .objKey =>
    if isAllowedWhitespace c then m
    else if c = 34 then { m with phase := .instr true [] 0 }
    else errAt m .hkeyExpected
  | .colon =>
    if isAllowedWhitespace c then m
    else if c = 58 then { m with phase := .val }
    else errAt m .colonExpected
  | .commaArr =>
    if isAllowedWhitespace c then m
    else if c = 44 then { m with phase := .val }
    else if c = 93 then closeContainer m
    else errAt m .commaExpected
  | .commaObj =>
    if isAllowedWhitespace c then m
    else if c = 44 then { m with phase := .objKey }
    else if c = 125 then closeContainer m
    else errAt m .commaExpected
  | .afterRoot =>
    if isAllowedWhitespace c then m else errAt m .garbageTrailing
  | _ => m

/-- Complete a scalar pop whose node push (or error) is already in `ctx2`:
run the attachment block and move to the after-value phase. -/
def finishScalar (m : MState) (ctx2 : Ctx) : MState :=
  if ctx2.err.isSome then { m with ctx := ctx2 }
  else
    { m with ctx := attachCB ctx2, phase := afterValPhase m.stack,
             rootNelem := afterValNelem m.stack m.rootNelem }

/-- One byte of the full scan: token phases first (a terminating byte pops the
pending token, then is re-examined in the resulting structural phase, as the
streaming lexer does); `jsonsl_stop` freezes the state once an error is
recorded; the position advances per consumed byte. -/
def stepByte (m : MState) (c : Nat) : MState :=
  if m.ctx.err.isSome then m
  else
    let m1 :=
      match m.phase with
      | .instr isKey acc nesc =>
        if c = 34 then
          let ctx2 := popStringCB m.ctx isKey acc nesc m.pos
          if ctx2.err.isSome then { m with ctx := ctx2 }
          else if isKey then { m with ctx := ctx2, phase := .colon }
          else finishScalar m ctx2
        else if c = 92 then { m with phase := .inesc isKey (acc ++ [92]) (nesc + 1) }
        else if c < 32 then errAt m .weirdWhitespace
        else { m with phase := .instr isKey (acc ++ [c]) nesc }
      | .inesc isKey acc nesc => { m with phase := .instr isKey (acc ++ [c]) nesc }
      | .innum acc sub fl ex =>
        match numStep acc sub fl ex c with
        | some (acc2, sub2, fl2, ex2) => { m with phase := .innum acc2 sub2 fl2 ex2 }
        | none =>
          if numComplete sub then
            let m2 := finishScalar m (popNumCB m.ctx acc fl ex m.pos)
            if m2.ctx.err.isSome then m2 else stepCore m2 c
          else errAt m .invalidNumber
      | .inlit rest isNull tv =>
        match rest with
        | r :: rs =>
          if c = r then { m with phase := .inlit rs isNull tv } else errAt m .specialExpected
        | [] =>
          let m2 := finishScalar m
            { m.ctx with nodes := (if isNull then Node.null else Node.bool tv) :: m.ctx.nodes }
          stepCore m2 c
      | _ => stepCore m c
    { m1 with pos := m.pos + 1 }

/-- Scan a byte list from a state. -/
def runBytes (m : MState) (input : List Nat) : MState :=
  input.foldl stepByte m

/-- Initial scanner state. -/
def initM : MState := ⟨.start, [], {}, 0, 0⟩

/-- What `jsonsl_feed` leaves behind for `CreateNodeFromJSON` to inspect:
the recorded error, the node stack, `jsn->level` and `jsn->stack[0].nelem`. -/
structure FeedOut where
  err : Option (LexErrC × Nat)
  nodes : List Node
  level : Nat
  rootNelem : Nat
deriving Repr

/-- Feed a whole buffer through the scanner. -/
def feed (input : List Nat) : FeedOut :=
  let m := runBytes initM input
  ⟨m.ctx.err, m.ctx.nodes, m.stack.length, m.rootNelem⟩

/-! ### `CreateNodeFromJSON` -/

/-- The leading-whitespace loop of `CreateNodeFromJSON` (line 173):
`while (_IsAllowedWhitespace(_buf[_off]) && _off < _len) _off++;`.
Returns the final offset together with every index read from the buffer —
note the byte is read before the bound is tested. The fuel only bounds the
recursion; `len + 1` covers every iteration the loop can make. -/
def wsScanGo (buf : Nat → Nat) (len : Nat) : Nat → Nat → List Nat → Nat × List Nat
  | 0, off, reads => (off, reads ++ [off])
  | fuel + 1, off, reads =>
    let reads2 := reads ++ [off]
    if isAllowedWhitespace (buf off) ∧ off < len then wsScanGo buf len fuel (off + 1) reads2
    else (off, reads2)

/-- Whitespace scan from offset 0 with an empty read log. -/
def wsScan (buf : Nat → Nat) (len : Nat) : Nat × List Nat := wsScanGo buf len (len + 1) 0 []

/-- The bytes `buf[start .. start+n)`. -/
def sliceBytes (buf : Nat → Nat) (start n : Nat) : List Nat :=
  (List.range n).map (fun i => buf (start + i))

/-- `"ERR JSON lexer error %s at position %zd"` with the 1-based position. -/
def mkLexErrMsg (e : LexErrC) (p : Nat) : String :=
  "ERR JSON lexer error " ++ errName e ++ " at position " ++ toString (p + 1)

/-- `"ERR JSON value incomplete - %u containers unterminated"`. -/
def mkIncompleteMsg (n : Nat) : String :=
  "ERR JSON value incomplete - " ++ toString n ++ " containers unterminated"

/-- `"ERR JSON value not found"`. -/
def notFoundMsg : String := "ERR JSON value not found"

/-- Modelled from the spec: `Node_ArrayItem(n, 0, node)` — the first element
of an array node (NULL when absent). -/
def nodeArrayItem0 : Node → Node
  | .arr (.cons e _) => e
  | _ => .null

/-- Result of `CreateNodeFromJSON` together with a resource ledger:
whether the synthetic scalar-wrap buffer was malloc'd, whether it was freed
on this return path, and the nodes freed by the error-path stack unwind. -/
structure ParseOut where
  result : Except String Node
  wrapAllocated : Bool
  wrapFreed : Bool
  freedOnError : List Node
deriving Repr

/-- `CreateNodeFromJSON`, translated: skip leading whitespace (reading the
byte before testing the bound); if the first byte examined is neither `{` nor
`[` and the offset is still inside the buffer, wrap the remainder as
`[ ... ]` in a fresh buffer of length `len - off + 2`; feed the lexer; report
a lexer error, an unterminated-container count, or a missing value, freeing
the node stack on those paths (the wrap buffer is freed only on the scalar
success path — the `error:` label never frees it); on success extract either
the sole element of the synthetic array (`Node_ArrayItem` at index 0) or the
top of the node stack. -/
def CreateNodeFromJSON (buf : Nat → Nat) (len : Nat) : ParseOut :=
  let off := (wsScan buf len).1
  let isScalar : Bool := !(buf off = 123 : Bool) && !(buf off = 91 : Bool) && decide (off < len)
  let input : List Nat :=
    if isScalar then 91 :: sliceBytes buf off (len - off) ++ [93] else sliceBytes buf 0 len
  let fr := feed input
  match fr.err with
  | some (e, p) => ⟨.error (mkLexErrMsg e p), isScalar, false, fr.nodes⟩
  | none =>
    if fr.level ≠ 0 then ⟨.error (mkIncompleteMsg fr.level), isScalar, false, fr.nodes⟩
    else if fr.rootNelem = 0 then ⟨.error notFoundMsg, isScalar, false, fr.nodes⟩
    else if isScalar then ⟨.ok (nodeArrayItem0 (fr.nodes.getLastD .null)), true, true, []⟩
    else ⟨.ok (fr.nodes.headD .null), false, false, []⟩

/-- Parse a byte list (the ordinary way to call `CreateNodeFromJSON`;
out-of-buffer bytes read out of bounds are 0 here). -/
def parseBytes (l : List Nat) : ParseOut :=
  CreateNodeFromJSON (fun i => l.getD i 0) l.length

/-! ### Auxiliary definitions for statements and proofs -/

/-- Number of decimal digits (proof-side measure for `natDec`). -/
def digitCount (n : Nat) : Nat :=
  if n < 10 then 1 else digitCount (n / 10) + 1
termination_by n
decreasing_by simp_wf; exact Nat.div_lt_self (by omega) (by omega)

/-- The keys of a dictionary's entry list (a non-keyval entry contributes an
empty key; well-formed dictionaries have only keyval entries). -/
def entKeys : NodeList → List (List Nat)
  | .nil => []
  | .cons e t => (match e with | .keyval k _ => k | _ => []) :: entKeys t

/-- No two keys alike. -/
def nodupKeys : List (List Nat) → Bool
  | [] => true
  | k :: ks => decide (k ∉ ks) && nodupKeys ks

/-- Key bytes that the serializer reproduces verbatim and the lexer accepts
inside a quoted key: at least 32 (no raw control bytes, no NUL truncation in
`sdscatfmt "%s"`), at most 255, and neither `"` nor `\`. -/
def goodKeyB (k : List Nat) : Bool :=
  k.all (fun b => decide (32 ≤ b ∧ b ≤ 255 ∧ b ≠ 34 ∧ b ≠ 92))

mutual
/-- Trees whose compact serialization parses back to the same tree: scalars
other than doubles (which re-parse as integers when rendered with zero decimal
places) and key/value wrappers outside dictionaries, strings of bytes, arrays,
and dictionaries of key/value entries with verbatim-safe distinct keys. The
depth budget `d` bounds container nesting so the lexer's fixed
`JSONSL_MAX_LEVELS` is never exceeded. -/
def goodV : Nat → Node → Bool
  | _, .null => true
  | _, .bool _ => true
  | _, .int i => decide (minI64 ≤ i ∧ i ≤ maxI64)
  | _, .num _ => false
  | _, .str s => s.all (fun b => decide (b ≤ 255))
  | _, .keyval _ _ => false
  | d, .dict es =>
    (match d with
     | 0 => false
     | d + 1 => goodEntries d es && nodupKeys (entKeys es))
  | d, .arr es =>
    (match d with
     | 0 => false
     | d + 1 => goodElems d es)

/-- Array elements that are good values. -/
def goodElems : Nat → NodeList → Bool
  | _, .nil => true
  | d, .cons e t => goodV d e && goodElems d t

/-- Dictionary entries: key/value wrappers with good keys and good values. -/
def goodEntries : Nat → NodeList → Bool
  | _, .nil => true
  | d, .cons e t =>
    (match e with
     | .keyval k v => goodKeyB k && goodV d v
     | _ => false) && goodEntries d t
end

/-- The spec's double-rendering rule, stated in its words: zero decimal places
when integral within floating-point epsilon and of magnitude below 1e60;
scientific when the magnitude is below 1e-6 or at/above 1e9; fixed-point with
17 significant digits otherwise. -/
def numBranchSpec (v : ℚ) : NumFmt :=
  if |(⌊v⌋ : ℚ) - v| ≤ dblEpsilon ∧ |v| < 10 ^ 60 then .zeroDec
  else if |v| < 1 / 10 ^ 6 ∨ |v| ≥ 10 ^ 9 then .sci
  else .fixed17

/-- The spec's escape policy for one string byte, stated in its words: the
eight two-character escapes; the raw byte if it is greater than 31 and
printable ASCII; a `\u00XX` four-hex-digit escape otherwise. -/
def escByteSpec (c : Nat) : List Nat :=
  if c = 34 then [92, 34]
  else if c = 92 then [92, 92]
  else if c = 47 then [92, 47]
  else if c = 8 then [92, 98]
  else if c = 12 then [92, 102]
  else if c = 10 then [92, 110]
  else if c = 13 then [92, 114]
  else if c = 9 then [92, 116]
  else if 31 < c ∧ isprintB c then [c]
  else [92, 117, 48, 48, hexDig (c / 16 % 16), hexDig (c % 16)]

/-- Number of escape sequences a byte contributes when serialized. -/
def escChunkN (b : Nat) : Nat := if escByte b = [b] then 0 else 1

/-- Total escape sequences in a serialized string body (what the lexer's
`nescapes` counter reaches). -/
def escCount (s : List Nat) : Nat := (s.map escChunkN).sum

/-- Round-trip invariant of a single value: from a value-expecting scanner
phase with a clean context, consuming the compact serialization of a good
value followed by a container delimiter leaves the scanner exactly where a
completed, attached value would: after-value phase, the value attached to the
top of the node stack, position advanced by the serialized length, with the
delimiter still to be examined in the after-value phase. -/
def ValRun (v : Node) : Prop :=
  ∀ (dv : Nat), goodV dv v = true →
  ∀ (ph : Phase), (ph = .val ∨ ph = .arrFirst) →
  ∀ (st : List Bool), st.length + dv ≤ maxLevels →
  ∀ (nodes : List Node) (pos rn : Nat) (d : Nat), (d = 44 ∨ d = 93 ∨ d = 125) →
  ∀ (rest : List Nat),
  runBytes ⟨ph, st, ⟨none, nodes⟩, pos, rn⟩ (outV v ++ d :: rest)
    = runBytes ⟨afterValPhase st, st, attachCB ⟨none, v :: nodes⟩,
                pos + (outV v).length, afterValNelem st rn⟩ (d :: rest)

/-- Round-trip invariant of an array body: with an open array on top of the
stacks, consuming the comma-joined serializations of good elements and the
closing bracket performs the successive appends and the container close. -/
def ElemsRun (es : NodeList) : Prop :=
  ∀ (dv : Nat), goodElems dv es = true →
  ∀ (first : Bool) (st' : List Bool), st'.length + 1 + dv ≤ maxLevels →
  ∀ (acc : NodeList) (nodes : List Node) (pos rn : Nat) (rest : List Nat),
  runBytes ⟨(if first then .arrFirst else .commaArr), false :: st',
            ⟨none, .arr acc :: nodes⟩, pos, rn⟩
      (outList first es ++ 93 :: rest)
    = runBytes ⟨afterValPhase st', st', attachCB ⟨none, .arr (acc.appendAll es) :: nodes⟩,
                pos + (outList first es).length + 1, afterValNelem st' rn⟩ rest

/-- Round-trip invariant of an object body: with an open dictionary on top of
the stacks and all remaining keys fresh, consuming the serialized entries and
the closing brace performs the successive key/value insertions and the close. -/
def EntriesRun (es : NodeList) : Prop :=
  ∀ (dv : Nat), goodEntries dv es = true → nodupKeys (entKeys es) = true →
  ∀ (first : Bool) (st' : List Bool), st'.length + 1 + dv ≤ maxLevels →
  ∀ (acc : NodeList), (∀ k ∈ entKeys es, k ∉ entKeys acc) →
  ∀ (nodes : List Node) (pos rn : Nat) (rest : List Nat),
  runBytes ⟨(if first then .objFirst else .commaObj), true :: st',
            ⟨none, .dict acc :: nodes⟩, pos, rn⟩
      (outList first es ++ 125 :: rest)
    = runBytes ⟨afterValPhase st', st', attachCB ⟨none, .dict (acc.appendAll es) :: nodes⟩,
                pos + (outList first es).length + 1, afterValNelem st' rn⟩ rest


/-! ## Lemmas: decimal digits and `strtoll` -/

theorem natDecGo_zero (fuel : Nat) (acc : List Nat) : natDecGo fuel 0 acc = acc := by
  cases fuel <;> simp [natDecGo]

theorem natDecGo_val : ∀ n, 0 < n → ∀ fuel, n ≤ fuel → ∀ acc a,
    (natDecGo fuel n acc).foldl (fun x d => x * 10 + (d - 48)) a
      = acc.foldl (fun x d => x * 10 + (d - 48)) (a * 10 ^ digitCount n + n) := by
  intro n
  induction n using Nat.strong_induction_on with
  | _ n ih =>
    intro hn fuel hf acc a
    cases fuel with
    | zero => omega
    | succ fuel =>
      rw [natDecGo]
      rw [if_neg (by omega : ¬ n = 0)]
      by_cases hlt : n < 10
      · have hd : n / 10 = 0 := Nat.div_eq_of_lt hlt
        rw [hd, natDecGo_zero]
        have hdc : digitCount n = 1 := by rw [digitCount]; simp [hlt]
        simp only [List.foldl_cons, hdc, pow_one]
        congr 1
        have hmod : n % 10 = n := Nat.mod_eq_of_lt hlt
        omega
      · have hpos : 0 < n / 10 := Nat.div_pos (by omega) (by omega)
        have hlt2 : n / 10 < n := Nat.div_lt_self hn (by omega)
        rw [ih (n / 10) hlt2 hpos fuel (by omega) _ a]
        simp only [List.foldl_cons]
        have hdc : digitCount n = digitCount (n / 10) + 1 := by
          rw [digitCount]; simp [hlt]
        rw [hdc, pow_succ, ← mul_assoc]
        congr 1
        generalize a * 10 ^ digitCount (n / 10) = X
        omega

theorem digitsVal_natDec (n : Nat) : digitsVal (natDec n) = n := by
  by_cases h : n = 0
  · subst h; simp [natDec, digitsVal]
  · rw [natDec, if_neg h]
    have := natDecGo_val n (by omega) n le_rfl [] 0
    simpa [digitsVal] using this

theorem natDecGo_digits : ∀ fuel n acc, (∀ c ∈ acc, isDigitB c = true) →
    ∀ c ∈ natDecGo fuel n acc, isDigitB c = true := by
  intro fuel
  induction fuel with
  | zero => intro n acc h c hc; exact h c (by simpa [natDecGo] using hc)
  | succ fuel ih =>
    intro n acc h c hc
    rw [natDecGo] at hc
    by_cases hz : n = 0
    · exact h c (by simpa [hz] using hc)
    · rw [if_neg hz] at hc
      refine ih (n / 10) _ ?_ c hc
      intro c2 hc2
      rcases List.mem_cons.mp hc2 with h1 | h2
      · subst h1; simp [isDigitB]; omega
      · exact h c2 h2

theorem natDec_digits (n : Nat) : ∀ c ∈ natDec n, isDigitB c = true := by
  intro c hc
  by_cases h : n = 0
  · rw [h] at hc; simp [natDec] at hc; subst hc; simp [isDigitB]
  · rw [natDec, if_neg h] at hc
    exact natDecGo_digits n n [] (by simp) c hc

theorem natDecGo_ne_nil : ∀ fuel n acc, acc ≠ [] ∨ (n ≠ 0 ∧ fuel ≠ 0) →
    natDecGo fuel n acc ≠ [] := by
  intro fuel
  induction fuel with
  | zero =>
    intro n acc h
    simp only [natDecGo]
    rcases h with h | ⟨_, h2⟩
    · exact h
    · exact absurd rfl h2
  | succ fuel ih =>
    intro n acc h
    rw [natDecGo]
    by_cases hz : n = 0
    · rw [if_pos hz]
      rcases h with h | ⟨h1, _⟩
      · exact h
      · exact absurd hz h1
    · rw [if_neg hz]
      exact ih _ _ (Or.inl (by simp))

theorem natDec_ne_nil (n : Nat) : natDec n ≠ [] := by
  by_cases h : n = 0
  · simp [natDec, h]
  · rw [natDec, if_neg h]
    exact natDecGo_ne_nil n n [] (Or.inr ⟨h, by omega⟩)

theorem takeWhile_all (p : Nat → Bool) : ∀ l : List Nat, (∀ a ∈ l, p a = true) →
    l.takeWhile p = l := by
  intro l
  induction l with
  | nil => intro _; rfl
  | cons x xs ih =>
    intro h
    rw [List.takeWhile_cons, h x (by simp)]
    simp only [if_pos]
    rw [ih (fun a ha => h a (by simp [ha]))]

theorem takeWhile_append_stop (p : Nat → Bool) : ∀ (l1 : List Nat) (x : Nat) (l2 : List Nat),
    (∀ a ∈ l1, p a = true) → p x = false → (l1 ++ x :: l2).takeWhile p = l1 := by
  intro l1
  induction l1 with
  | nil => intro x l2 _ hx; simp [List.takeWhile_cons, hx]
  | cons a l1 ih =>
    intro x l2 h hx
    rw [List.cons_append, List.takeWhile_cons, h a (by simp)]
    simp only [if_pos]
    rw [ih x l2 (fun b hb => h b (by simp [hb])) hx]

theorem headD_digit (ds : List Nat) (h : ds ≠ []) (hd : ∀ c ∈ ds, isDigitB c = true) :
    48 ≤ ds.headD 0 ∧ ds.headD 0 ≤ 57 := by
  match ds, h with
  | d :: rest, _ =>
    have := hd d (by simp)
    simp only [isDigitB, Bool.and_eq_true, decide_eq_true_eq] at this
    simpa using this

/-- `strtollM` on an all-digit token that fits in the int64 range: full
consumption, no range error. -/
theorem strtollM_digits (d : Nat) (tl : List Nat)
    (hds : ∀ c ∈ d :: tl, isDigitB c = true)
    (hb : (digitsVal (d :: tl) : Int) ≤ maxI64) :
    strtollM (d :: tl) = ((digitsVal (d :: tl) : Int), (d :: tl).length, false) := by
  have hd : 48 ≤ d ∧ d ≤ 57 := by simpa [isDigitB] using hds d (by simp)
  have hTW := takeWhile_all (fun c => isDigitB c) (d :: tl) hds
  have hnn : (0 : Int) ≤ (digitsVal (d :: tl) : Int) := Int.natCast_nonneg _
  rw [strtollM]
  simp only [List.headD_cons]
  rw [if_neg (show ¬ (d = 45 ∨ d = 43) by omega)]
  simp only [List.drop_zero, hTW, List.isEmpty_cons]
  rw [if_neg (show ¬ d = 45 by omega)]
  simp only [Bool.false_eq_true, if_false]
  rw [if_neg (show ¬ ((digitsVal (d :: tl) : Int) > maxI64) by omega)]
  rw [if_neg (show ¬ ((digitsVal (d :: tl) : Int) < minI64) by
    simp only [minI64]; omega)]
  simp

/-- `strtollM` on a minus sign followed by all-digit magnitude in range. -/
theorem strtollM_neg_digits (d : Nat) (tl : List Nat)
    (hds : ∀ c ∈ d :: tl, isDigitB c = true)
    (hb : -(digitsVal (d :: tl) : Int) ≥ minI64) :
    strtollM (45 :: d :: tl) = (-(digitsVal (d :: tl) : Int), 1 + (d :: tl).length, false) := by
  have hTW := takeWhile_all (fun c => isDigitB c) (d :: tl) hds
  have hnn : (0 : Int) ≤ (digitsVal (d :: tl) : Int) := Int.natCast_nonneg _
  rw [strtollM]
  simp only [List.headD_cons, true_or, if_true]
  simp only [List.drop_succ_cons, List.drop_zero, hTW, List.isEmpty_cons]
  simp only [Bool.false_eq_true, if_false]
  rw [if_neg (show ¬ (-(digitsVal (d :: tl) : Int) > maxI64) by
    simp only [maxI64]; omega)]
  rw [if_neg (show ¬ (-(digitsVal (d :: tl) : Int) < minI64) by omega)]

/-- `strtoll` inverts decimal rendering on the int64 range, with full
consumption and no range error. -/
theorem classifyInt_intDec (i : Int) (h1 : minI64 ≤ i) (h2 : i ≤ maxI64) :
    classifyInt (intDec i) = some i := by
  have h1x : -(2 ^ 63 : Int) ≤ i := h1
  have h2x : i ≤ 2 ^ 63 - 1 := h2
  have hds := natDec_digits i.natAbs
  have hne := natDec_ne_nil i.natAbs
  obtain ⟨d, tl, hdt⟩ : ∃ d tl, natDec i.natAbs = d :: tl := by
    cases hx : natDec i.natAbs with
    | nil => exact absurd hx hne
    | cons d tl => exact ⟨d, tl, rfl⟩
  rw [hdt] at hds
  have hval : digitsVal (d :: tl) = i.natAbs := by
    rw [← hdt, digitsVal_natDec]
  by_cases hneg : i < 0
  · rw [intDec, if_pos hneg, hdt]
    rw [classifyInt, strtollM_neg_digits d tl hds
      (by rw [hval]; show -(i.natAbs : Int) ≥ -(2 ^ 63); omega)]
    simp only [List.length_cons]
    rw [if_neg (by simp; omega)]
    simp only [Option.some.injEq, hval]
    omega
  · rw [intDec, if_neg hneg, hdt]
    rw [classifyInt, strtollM_digits d tl hds
      (by rw [hval]; show (i.natAbs : Int) ≤ 2 ^ 63 - 1; omega)]
    rw [if_neg (by simp)]
    simp only [Option.some.injEq, hval]
    omega

/-- An integer token whose digits are followed by anything that is not a digit
(nor a sign) is rejected by the integer classifier: `strtoll` stops before the
end of the token. -/
theorem classifyInt_trailing (ds : List Nat) (c : Nat) (rest : List Nat)
    (hds : ∀ d ∈ ds, isDigitB d = true) (hc : isDigitB c = false)
    (hc2 : c ≠ 45) (hc3 : c ≠ 43) :
    classifyInt (ds ++ c :: rest) = none := by
  match ds with
  | [] =>
    rw [classifyInt, strtollM]
    have hcc : ¬ (c = 45 ∨ c = 43) := by omega
    simp [hcc, hc, List.takeWhile_cons]
  | d :: ds2 =>
    have hd2 : 48 ≤ d ∧ d ≤ 57 := by
      simpa [isDigitB] using hds d (by simp)
    have hne2 : (0 : Nat) + (d :: ds2).length ≠ ((d :: ds2) ++ c :: rest).length := by
      simp only [List.length_cons, List.length_append]; omega
    rw [classifyInt, strtollM]
    simp only [List.cons_append, List.headD_cons]
    rw [if_neg (show ¬ (d = 45 ∨ d = 43) by omega)]
    simp only [List.drop_zero]
    rw [show (d :: (ds2 ++ c :: rest)) = ((d :: ds2) ++ c :: rest) by simp]
    rw [takeWhile_append_stop _ _ _ _ hds hc]
    simp only [List.isEmpty_cons, Bool.false_eq_true, if_false]
    rw [if_neg (show ¬ d = 45 by omega)]
    split
    · rw [if_pos (Or.inr hne2)]
    · split
      · rw [if_pos (Or.inr hne2)]
      · rw [if_pos (Or.inr hne2)]


/-! ## Lemmas: string escape / unescape -/

theorem hexVal_hexDig (n : Nat) (h : n < 16) : hexVal (hexDig n) = some n := by
  interval_cases n <;> rfl

/-- Decoding one serialized chunk prepends exactly the original byte. -/
theorem unesc_escByte (b : Nat) (hb : b ≤ 255) (rest : List Nat) :
    unesc (escByte b ++ rest) = (fun t => b :: t) <$> unesc rest := by
  by_cases h34 : b = 34
  · subst h34
    rw [show escByte 34 ++ rest = 92 :: 34 :: rest from rfl, unesc.eq_def]
    simp [allowedEscape, unescMap]
  by_cases h92 : b = 92
  · subst h92
    rw [show escByte 92 ++ rest = 92 :: 92 :: rest from rfl, unesc.eq_def]
    simp [allowedEscape, unescMap]
  by_cases h47 : b = 47
  · subst h47
    rw [show escByte 47 ++ rest = 92 :: 47 :: rest from rfl, unesc.eq_def]
    simp [allowedEscape, unescMap]
  by_cases h8 : b = 8
  · subst h8
    rw [show escByte 8 ++ rest = 92 :: 98 :: rest from rfl, unesc.eq_def]
    simp [allowedEscape, unescMap]
  by_cases h12 : b = 12
  · subst h12
    rw [show escByte 12 ++ rest = 92 :: 102 :: rest from rfl, unesc.eq_def]
    simp [allowedEscape, unescMap]
  by_cases h10 : b = 10
  · subst h10
    rw [show escByte 10 ++ rest = 92 :: 110 :: rest from rfl, unesc.eq_def]
    simp [allowedEscape, unescMap]
  by_cases h13 : b = 13
  · subst h13
    rw [show escByte 13 ++ rest = 92 :: 114 :: rest from rfl, unesc.eq_def]
    simp [allowedEscape, unescMap]
  by_cases h9 : b = 9
  · subst h9
    rw [show escByte 9 ++ rest = 92 :: 116 :: rest from rfl, unesc.eq_def]
    simp [allowedEscape, unescMap]
  have hesc : escByte b =
      (if 31 < b ∧ isprintB b then [b]
       else [92, 117, 48, 48, hexDig (b / 16 % 16), hexDig (b % 16)]) := by
    rw [escByte]
    rw [if_neg (by omega : ¬ (b = 34 ∨ b = 92)), if_neg h47, if_neg h8, if_neg h12,
      if_neg h10, if_neg h13, if_neg h9]
  by_cases hpr : 31 < b ∧ isprintB b
  · rw [hesc, if_pos hpr]
    rw [show [b] ++ rest = b :: rest from rfl, unesc.eq_def]
    simp only [if_neg h92]
  · rw [hesc, if_neg hpr]
    have hd1 : b / 16 % 16 = b / 16 := by omega
    have hv1 : hexVal (hexDig (b / 16 % 16)) = some (b / 16) := by
      rw [hd1]; exact hexVal_hexDig _ (by omega)
    have hv2 : hexVal (hexDig (b % 16)) = some (b % 16) := hexVal_hexDig _ (by omega)
    simp only [List.cons_append, List.nil_append]
    rw [unesc.eq_def]
    simp only [if_true, reduceIte]
    rw [show hexVal 48 = some 0 from rfl, hv1, hv2]
    simp only []
    have hval : ((0 * 16 + 0) * 16 + b / 16) * 16 + b % 16 = b := by omega
    rw [hval]
    rw [show ucharBytes b = [b] from by rw [ucharBytes, if_pos hb]]
    rfl

/-- Unescaping inverts escaping on byte strings. -/
theorem unesc_escapeStr (s : List Nat) (h : ∀ b ∈ s, b ≤ 255) :
    unesc (escapeStr s) = .ok s := by
  induction s with
  | nil => rfl
  | cons b s ih =>
    rw [show escapeStr (b :: s) = escByte b ++ escapeStr s from by simp [escapeStr]]
    rw [unesc_escByte b (h b (by simp))]
    rw [ih (fun x hx => h x (by simp [hx]))]
    rfl


/-- A string without escape sequences serializes to itself. -/
theorem escCount_zero (s : List Nat) (h : escCount s = 0) : escapeStr s = s := by
  induction s with
  | nil => rfl
  | cons b s ih =>
    simp only [escCount, List.map_cons, List.sum_cons] at h
    have h1 : escChunkN b = 0 := by omega
    have h2 : escapeStr s = s := ih (by simp [escCount]; omega)
    rw [show escapeStr (b :: s) = escByte b ++ escapeStr s from by simp [escapeStr]]
    rw [h2]
    rw [escChunkN] at h1
    by_cases hx : escByte b = [b]
    · rw [hx]; rfl
    · rw [if_neg hx] at h1; omega

/-- The string arm of `popCallback` recovers the original bytes from their
serialized form, whether or not escapes occurred. -/
theorem popStringCB_escapeStr (ctx : Ctx) (isKey : Bool) (s : List Nat) (pos : Nat)
    (h : ∀ b ∈ s, b ≤ 255) :
    popStringCB ctx isKey (escapeStr s) (escCount s) pos
      = { ctx with nodes :=
          (if isKey then Node.keyval s .null else Node.str s) :: ctx.nodes } := by
  rw [popStringCB]
  by_cases hz : escCount s = 0
  · rw [if_neg (by omega : ¬ escCount s ≠ 0)]
    rw [escCount_zero s hz]
  · rw [if_pos hz]
    rw [unesc_escapeStr s h]


/-! ## Lemmas: the walker at compact (all-empty) formatting options -/

theorem serWalk_compact_aux : ∀ N : Nat,
    (∀ n : Node, sizeOf n ≤ N → ∀ buf d,
       serWalk n ⟨buf, d, [], [], [], [44]⟩ = ⟨buf ++ outV n, d, [], [], [], [44]⟩)
  ∧ (∀ es : NodeList, sizeOf es ≤ N → ∀ first buf d,
       serWalkList first es ⟨buf, d, [], [], [], [44]⟩
         = ⟨buf ++ outList first es, d, [], [], [], [44]⟩) := by
  intro N
  induction N with
  | zero =>
    constructor
    · intro n h; exact absurd h (by cases n <;> simp)
    · intro es h; exact absurd h (by cases es <;> simp)
  | succ N ih =>
    obtain ⟨ihV, ihL⟩ := ih
    constructor
    · intro n h buf d
      match n with
      | .null => rfl
      | .bool true => rfl
      | .bool false => rfl
      | .int i => rfl
      | .num v =>
        cases hnb : numBranch v <;>
          simp [serWalk, serBeginValue, outV, hnb]
      | .str s => simp [serWalk, serBeginValue, outV]
      | .keyval k v =>
        have hs : sizeOf v ≤ N := by simp at h; omega
        rw [serWalk]
        have hbegin : serBeginValue (.keyval k v) ⟨buf, d, [], [], [], [44]⟩
            = ⟨buf ++ ([34] ++ k.takeWhile (fun c => c ≠ 0) ++ [34, 58]), d, [], [], [], [44]⟩ := by
          rw [serBeginValue]; simp
        rw [hbegin, ihV v hs]
        rw [outV]
        simp
      | .dict es =>
        have hs : sizeOf es ≤ N := by simp at h; omega
        rw [serWalk]
        have hbegin : serBeginValue (.dict es) ⟨buf, d, [], [], [], [44]⟩
            = ⟨buf ++ [123], d + 1, [], [], [], [44]⟩ := by
          rw [serBeginValue]
          by_cases hz : es.length ≠ 0 <;> simp [hz, serIndent]
        rw [hbegin, ihL es hs]
        rw [serEndValue]
        by_cases hz : es.length ≠ 0 <;> simp [hz, serIndent, outV]
      | .arr es =>
        have hs : sizeOf es ≤ N := by simp at h; omega
        rw [serWalk]
        have hbegin : serBeginValue (.arr es) ⟨buf, d, [], [], [], [44]⟩
            = ⟨buf ++ [91], d + 1, [], [], [], [44]⟩ := by
          rw [serBeginValue]
          by_cases hz : es.length ≠ 0 <;> simp [hz, serIndent]
        rw [hbegin, ihL es hs]
        rw [serEndValue]
        by_cases hz : es.length ≠ 0 <;> simp [hz, serIndent, outV]
    · intro es h first buf d
      match es with
      | .nil => rw [serWalkList, outList]; simp
      | .cons e t =>
        have hse : sizeOf e ≤ N := by simp at h; omega
        have hst : sizeOf t ≤ N := by simp at h; omega
        rw [serWalkList]
        have hpre : (if first then (⟨buf, d, [], [], [], [44]⟩ : BCtx)
            else serDelim ⟨buf, d, [], [], [], [44]⟩)
            = ⟨buf ++ (if first then [] else [44]), d, [], [], [], [44]⟩ := by
          cases first <;> simp [serDelim, serIndent]
        rw [hpre, ihV e hse, ihL t hst false]
        rw [outList]
        simp


/-- `SerializeNodeToJSON` with all-empty format strings appends exactly the
compact serialization `outV`. -/
theorem serialize_compact (n : Node) (json : List Nat) :
    SerializeNodeToJSON n compactOpt json = json ++ outV n := by
  obtain ⟨hV, -⟩ := serWalk_compact_aux (sizeOf n)
  show (serWalk n ⟨json, 0, [], [], [], [44]⟩).buf = json ++ outV n
  rw [hV n le_rfl json 0]


/-! ## Lemmas: elementary scanner runs -/

theorem runBytes_nil (m : MState) : runBytes m [] = m := rfl

theorem runBytes_cons (m : MState) (c : Nat) (l : List Nat) :
    runBytes m (c :: l) = runBytes (stepByte m c) l := rfl

theorem runBytes_append (m : MState) (a b : List Nat) :
    runBytes m (a ++ b) = runBytes (runBytes m a) b := by
  simp [runBytes]

/-- The attachment step never records an error. -/
theorem attachCB_err (nodes : List Node) : (attachCB ⟨none, nodes⟩).err = none := by
  unfold attachCB
  rcases nodes with _ | ⟨top, _ | ⟨parent, rest⟩⟩
  · rfl
  · rfl
  cases parent <;> try rfl
  cases rest <;> rfl

/-- A byte from 33 on is not allowed whitespace. -/
theorem not_ws (c : Nat) (h1 : 33 ≤ c) (h2 : c ≤ 255) : isAllowedWhitespace c = false := by
  simp only [isAllowedWhitespace, Nat.mod_eq_of_lt (show c < 256 by omega),
    Bool.or_eq_false_iff, decide_eq_false_iff_not]
  omega

theorem stepByte_instr_plain (isKey : Bool) (acc : List Nat) (nesc : Nat)
    (st : List Bool) (nodes : List Node) (pos rn : Nat) (c : Nat)
    (h1 : c ≠ 34) (h2 : c ≠ 92) (h3 : ¬ c < 32) :
    stepByte ⟨.instr isKey acc nesc, st, ⟨none, nodes⟩, pos, rn⟩ c
      = ⟨.instr isKey (acc ++ [c]) nesc, st, ⟨none, nodes⟩, pos + 1, rn⟩ := by
  simp [stepByte, h1, h2, h3]

theorem stepByte_instr_bs (isKey : Bool) (acc : List Nat) (nesc : Nat)
    (st : List Bool) (nodes : List Node) (pos rn : Nat) :
    stepByte ⟨.instr isKey acc nesc, st, ⟨none, nodes⟩, pos, rn⟩ 92
      = ⟨.inesc isKey (acc ++ [92]) (nesc + 1), st, ⟨none, nodes⟩, pos + 1, rn⟩ := by
  simp [stepByte]

theorem stepByte_inesc (isKey : Bool) (acc : List Nat) (nesc : Nat)
    (st : List Bool) (nodes : List Node) (pos rn : Nat) (c : Nat) :
    stepByte ⟨.inesc isKey acc nesc, st, ⟨none, nodes⟩, pos, rn⟩ c
      = ⟨.instr isKey (acc ++ [c]) nesc, st, ⟨none, nodes⟩, pos + 1, rn⟩ := by
  simp [stepByte]

theorem run_instr_chunk1 (c : Nat) (h1 : c ≠ 34) (h2 : c ≠ 92) (h3 : ¬ c < 32)
    (isKey : Bool) (acc : List Nat) (nesc : Nat)
    (st : List Bool) (nodes : List Node) (pos rn : Nat) :
    runBytes ⟨.instr isKey acc nesc, st, ⟨none, nodes⟩, pos, rn⟩ [c]
      = ⟨.instr isKey (acc ++ [c]) nesc, st, ⟨none, nodes⟩, pos + 1, rn⟩ := by
  rw [runBytes_cons, stepByte_instr_plain _ _ _ _ _ _ _ _ h1 h2 h3, runBytes_nil]

theorem run_instr_chunk2 (e : Nat) (isKey : Bool) (acc : List Nat) (nesc : Nat)
    (st : List Bool) (nodes : List Node) (pos rn : Nat) :
    runBytes ⟨.instr isKey acc nesc, st, ⟨none, nodes⟩, pos, rn⟩ [92, e]
      = ⟨.instr isKey (acc ++ [92, e]) (nesc + 1), st, ⟨none, nodes⟩, pos + 2, rn⟩ := by
  rw [runBytes_cons, stepByte_instr_bs, runBytes_cons, stepByte_inesc, runBytes_nil]
  simp

/-- `hexDig` lands in the plain-byte range. -/
theorem hexDig_plain (n : Nat) (h : n < 16) :
    hexDig n ≠ 34 ∧ hexDig n ≠ 92 ∧ ¬ hexDig n < 32 := by
  unfold hexDig; split <;> omega

theorem run_instr_chunk6 (x y : Nat)
    (hx : x ≠ 34 ∧ x ≠ 92 ∧ ¬ x < 32) (hy : y ≠ 34 ∧ y ≠ 92 ∧ ¬ y < 32)
    (isKey : Bool) (acc : List Nat) (nesc : Nat)
    (st : List Bool) (nodes : List Node) (pos rn : Nat) :
    runBytes ⟨.instr isKey acc nesc, st, ⟨none, nodes⟩, pos, rn⟩ [92, 117, 48, 48, x, y]
      = ⟨.instr isKey (acc ++ [92, 117, 48, 48, x, y]) (nesc + 1), st, ⟨none, nodes⟩,
          pos + 6, rn⟩ := by
  rw [runBytes_cons, stepByte_instr_bs, runBytes_cons, stepByte_inesc,
      runBytes_cons, stepByte_instr_plain _ _ _ _ _ _ _ _ (by omega) (by omega) (by omega),
      runBytes_cons, stepByte_instr_plain _ _ _ _ _ _ _ _ (by omega) (by omega) (by omega),
      runBytes_cons, stepByte_instr_plain _ _ _ _ _ _ _ _ hx.1 hx.2.1 hx.2.2,
      runBytes_cons, stepByte_instr_plain _ _ _ _ _ _ _ _ hy.1 hy.2.1 hy.2.2, runBytes_nil]
  simp

/-- Scanning the escape of one byte inside a string token extends the token
accumulator by the escape chunk and bumps the escape counter accordingly. -/
theorem run_instr_chunk (b : Nat) (hb : b ≤ 255) (isKey : Bool) (acc : List Nat) (nesc : Nat)
    (st : List Bool) (nodes : List Node) (pos rn : Nat) :
    runBytes ⟨.instr isKey acc nesc, st, ⟨none, nodes⟩, pos, rn⟩ (escByte b)
      = ⟨.instr isKey (acc ++ escByte b) (nesc + escChunkN b), st, ⟨none, nodes⟩,
          pos + (escByte b).length, rn⟩ := by
  unfold escChunkN escByte
  by_cases hA : b = 34 ∨ b = 92
  · simp only [if_pos hA]
    rw [run_instr_chunk2]
    simp
  simp only [if_neg hA]
  by_cases h47 : b = 47
  · simp only [if_pos h47]; rw [run_instr_chunk2]; simp
  simp only [if_neg h47]
  by_cases h8 : b = 8
  · simp only [if_pos h8]; rw [run_instr_chunk2]; simp
  simp only [if_neg h8]
  by_cases h12 : b = 12
  · simp only [if_pos h12]; rw [run_instr_chunk2]; simp
  simp only [if_neg h12]
  by_cases h10 : b = 10
  · simp only [if_pos h10]; rw [run_instr_chunk2]; simp
  simp only [if_neg h10]
  by_cases h13 : b = 13
  · simp only [if_pos h13]; rw [run_instr_chunk2]; simp
  simp only [if_neg h13]
  by_cases h9 : b = 9
  · simp only [if_pos h9]; rw [run_instr_chunk2]; simp
  simp only [if_neg h9]
  by_cases hpr : 31 < b ∧ isprintB b = true
  · simp only [if_pos hpr]
    rw [run_instr_chunk1 b (by omega) (by omega) (by omega)]
    simp
  · simp only [if_neg hpr]
    rw [run_instr_chunk6 (hexDig (b / 16 % 16)) (hexDig (b % 16))
        (hexDig_plain _ (Nat.mod_lt _ (by omega))) (hexDig_plain _ (Nat.mod_lt _ (by omega)))]
    simp

/-- Scanning the escaped body of a string extends the token accumulator by the
body and counts every escape. -/
theorem run_instr_body (s : List Nat) (h : ∀ b ∈ s, b ≤ 255) : ∀ (isKey : Bool)
    (acc : List Nat) (nesc : Nat) (st : List Bool) (nodes : List Node) (pos rn : Nat),
    runBytes ⟨.instr isKey acc nesc, st, ⟨none, nodes⟩, pos, rn⟩ (escapeStr s)
      = ⟨.instr isKey (acc ++ escapeStr s) (nesc + escCount s), st, ⟨none, nodes⟩,
          pos + (escapeStr s).length, rn⟩ := by
  induction s with
  | nil => intro isKey acc nesc st nodes pos rn; simp [escapeStr, escCount, runBytes]
  | cons b t ih =>
    intro isKey acc nesc st nodes pos rn
    rw [show escapeStr (b :: t) = escByte b ++ escapeStr t from by simp [escapeStr]]
    rw [runBytes_append, run_instr_chunk b (h b (by simp))]
    rw [ih (fun x hx => h x (by simp [hx]))]
    simp [escCount, Nat.add_assoc]

/-- Scanning plain in-range key bytes accumulates them verbatim. -/
theorem run_instr_key (k : List Nat) (hk : ∀ c ∈ k, 32 ≤ c ∧ c ≠ 34 ∧ c ≠ 92) : ∀ (isKey : Bool)
    (acc : List Nat) (nesc : Nat) (st : List Bool) (nodes : List Node) (pos rn : Nat),
    runBytes ⟨.instr isKey acc nesc, st, ⟨none, nodes⟩, pos, rn⟩ k
      = ⟨.instr isKey (acc ++ k) nesc, st, ⟨none, nodes⟩, pos + k.length, rn⟩ := by
  induction k with
  | nil => intro isKey acc nesc st nodes pos rn; simp [runBytes]
  | cons c t ih =>
    intro isKey acc nesc st nodes pos rn
    obtain ⟨hc1, hc2, hc3⟩ := hk c (by simp)
    rw [runBytes_cons, stepByte_instr_plain _ _ _ _ _ _ _ _ hc2 hc3 (by omega)]
    rw [ih (fun x hx => hk x (by simp [hx]))]
    simp [Nat.add_assoc]
    omega

theorem stepByte_innum_digit (acc : List Nat) (fl ex : Bool) (c : Nat) (hc : isDigitB c = true)
    (st : List Bool) (nodes : List Node) (pos rn : Nat) :
    stepByte ⟨.innum acc .ipart fl ex, st, ⟨none, nodes⟩, pos, rn⟩ c
      = ⟨.innum (acc ++ [c]) .ipart fl ex, st, ⟨none, nodes⟩, pos + 1, rn⟩ := by
  simp [stepByte, numStep, hc]

theorem stepByte_innum_digit_sgn (acc : List Nat) (fl ex : Bool) (c : Nat)
    (hc : isDigitB c = true) (st : List Bool) (nodes : List Node) (pos rn : Nat) :
    stepByte ⟨.innum acc .sgn fl ex, st, ⟨none, nodes⟩, pos, rn⟩ c
      = ⟨.innum (acc ++ [c]) .ipart fl ex, st, ⟨none, nodes⟩, pos + 1, rn⟩ := by
  simp [stepByte, numStep, hc]

/-- Scanning further digits of an integer token accumulates them. -/
theorem run_innum_digits (ds : List Nat) (hds : ∀ c ∈ ds, isDigitB c = true) :
    ∀ (acc : List Nat) (fl ex : Bool) (st : List Bool) (nodes : List Node) (pos rn : Nat),
    runBytes ⟨.innum acc .ipart fl ex, st, ⟨none, nodes⟩, pos, rn⟩ ds
      = ⟨.innum (acc ++ ds) .ipart fl ex, st, ⟨none, nodes⟩, pos + ds.length, rn⟩ := by
  induction ds with
  | nil => intro acc fl ex st nodes pos rn; simp [runBytes]
  | cons c t ih =>
    intro acc fl ex st nodes pos rn
    rw [runBytes_cons, stepByte_innum_digit _ _ _ _ (hds c (by simp))]
    rw [ih (fun x hx => hds x (by simp [hx]))]
    simp [Nat.add_assoc]
    omega

/-- Scanning the remaining characters of a literal keyword consumes them. -/
theorem run_inlit (r : List Nat) (isNull tv : Bool) :
    ∀ (st : List Bool) (nodes : List Node) (pos rn : Nat),
    runBytes ⟨.inlit r isNull tv, st, ⟨none, nodes⟩, pos, rn⟩ r
      = ⟨.inlit [] isNull tv, st, ⟨none, nodes⟩, pos + r.length, rn⟩ := by
  induction r with
  | nil => intro st nodes pos rn; simp [runBytes]
  | cons c t ih =>
    intro st nodes pos rn
    rw [runBytes_cons]
    have hstep : stepByte ⟨.inlit (c :: t) isNull tv, st, ⟨none, nodes⟩, pos, rn⟩ c
        = ⟨.inlit t isNull tv, st, ⟨none, nodes⟩, pos + 1, rn⟩ := by
      simp [stepByte]
    rw [hstep, ih]
    simp [Nat.add_assoc]
    omega

/-- A byte examined in an after-value phase with a freshly attached context
goes through the structural dispatcher. -/
theorem stepByte_afterVal (nodes2 : List Node) (st : List Bool) (pos rn : Nat) (c : Nat) :
    stepByte ⟨afterValPhase st, st, attachCB ⟨none, nodes2⟩, pos, rn⟩ c
      = { stepCore ⟨afterValPhase st, st, attachCB ⟨none, nodes2⟩, pos, rn⟩ c
          with pos := pos + 1 } := by
  have hz := attachCB_err nodes2
  cases st with
  | nil => simp [stepByte, afterValPhase, hz]
  | cons h t => cases h <;> simp [stepByte, afterValPhase, hz]

/-- The delimiter after a completed literal token performs the pop first: the
scan continues exactly as from the attached after-value state. -/
theorem run_inlit_pop (isNull tv : Bool) (st : List Bool) (nodes : List Node) (pos rn : Nat)
    (c : Nat) (rest : List Nat) :
    runBytes ⟨.inlit [] isNull tv, st, ⟨none, nodes⟩, pos, rn⟩ (c :: rest)
      = runBytes ⟨afterValPhase st, st,
          attachCB ⟨none, (if isNull then Node.null else Node.bool tv) :: nodes⟩,
          pos, afterValNelem st rn⟩ (c :: rest) := by
  rw [runBytes_cons, runBytes_cons, stepByte_afterVal]
  congr 1

/-- The delimiter after a completed in-range integer token performs the pop
first: the scan continues exactly as from the attached after-value state. -/
theorem run_innum_pop (acc : List Nat) (i : Int) (hcl : classifyInt acc = some i)
    (st : List Bool) (nodes : List Node) (pos rn : Nat) (d : Nat)
    (hd : d = 44 ∨ d = 93 ∨ d = 125) (rest : List Nat) :
    runBytes ⟨.innum acc .ipart false false, st, ⟨none, nodes⟩, pos, rn⟩ (d :: rest)
      = runBytes ⟨afterValPhase st, st, attachCB ⟨none, Node.int i :: nodes⟩,
          pos, afterValNelem st rn⟩ (d :: rest) := by
  have hns : numStep acc .ipart false false d = none := by
    rcases hd with h | h | h <;> subst h <;> simp [numStep, isDigitB]
  have hpop : popNumCB ⟨none, nodes⟩ acc false false pos = ⟨none, Node.int i :: nodes⟩ := by
    rw [popNumCB]
    simp [hcl]
  rw [runBytes_cons, runBytes_cons, stepByte_afterVal]
  congr 1
  simp [stepByte, hns, numComplete, finishScalar, hpop, attachCB_err]

/-- In a value-expecting phase, a byte that can start a value is handled by
`valueStart` (the array-first close check does not fire). -/
theorem stepByte_valstart (ph : Phase) (hph : ph = .val ∨ ph = .arrFirst)
    (st : List Bool) (nodes : List Node) (pos rn : Nat) (c : Nat)
    (hc : c = 34 ∨ c = 123 ∨ c = 91 ∨ c = 45 ∨ isDigitB c = true ∨
          c = 116 ∨ c = 102 ∨ c = 110) :
    stepByte ⟨ph, st, ⟨none, nodes⟩, pos, rn⟩ c
      = { valueStart ⟨ph, st, ⟨none, nodes⟩, pos, rn⟩ c with pos := pos + 1 } := by
  have h93 : ¬ c = 93 := by
    rcases hc with h|h|h|h|h|h|h|h
    any_goals omega
    simp [isDigitB] at h; omega
  rcases hph with h | h <;> subst h
  · simp [stepByte, stepCore]
  · simp [stepByte, stepCore, h93]

/-! ## Lemmas: child-list bookkeeping -/

theorem cat_nil (xs : NodeList) : xs.cat .nil = xs := by
  match xs with
  | .nil => rfl
  | .cons h t => rw [NodeList.cat, cat_nil t]

theorem append1_cat (xs : NodeList) (e : Node) (ys : NodeList) :
    (xs.append1 e).cat ys = xs.cat (.cons e ys) := by
  match xs with
  | .nil => rfl
  | .cons h t => rw [NodeList.append1, NodeList.cat, append1_cat t, NodeList.cat]

theorem appendAll_eq_cat (es : NodeList) : ∀ acc : NodeList, acc.appendAll es = acc.cat es := by
  match es with
  | .nil => intro acc; rw [NodeList.appendAll, cat_nil]
  | .cons e t =>
    intro acc
    rw [NodeList.appendAll, appendAll_eq_cat t, append1_cat]

theorem appendAll_nil_left (es : NodeList) : NodeList.appendAll .nil es = es := by
  rw [appendAll_eq_cat]; rfl

/-- Appending a key/value entry appends its key. -/
theorem entKeys_append1 (acc : NodeList) (k : List Nat) (v : Node) :
    entKeys (acc.append1 (.keyval k v)) = entKeys acc ++ [k] := by
  match acc with
  | .nil => rfl
  | .cons e t =>
    cases e <;> simp [NodeList.append1, entKeys, entKeys_append1 t]

/-- Setting a fresh key appends the entry (the overwrite branch never fires). -/
theorem setEntry_fresh (acc : NodeList) (k : List Nat) (v : Node) (h : k ∉ entKeys acc) :
    setEntry acc k v = acc.append1 (.keyval k v) := by
  match acc with
  | .nil => rfl
  | .cons (.keyval k2 v2) t =>
    simp only [entKeys, List.mem_cons, not_or] at h
    have hne : ¬ k2 = k := fun heq => h.1 heq.symm
    simp only [setEntry, NodeList.append1, if_neg hne]
    rw [setEntry_fresh t k v h.2]
  | .cons .null t =>
    simp only [entKeys, List.mem_cons, not_or] at h
    simp only [setEntry, NodeList.append1]
    rw [setEntry_fresh t k v h.2]
  | .cons (.bool b) t =>
    simp only [entKeys, List.mem_cons, not_or] at h
    simp only [setEntry, NodeList.append1]
    rw [setEntry_fresh t k v h.2]
  | .cons (.int i) t =>
    simp only [entKeys, List.mem_cons, not_or] at h
    simp only [setEntry, NodeList.append1]
    rw [setEntry_fresh t k v h.2]
  | .cons (.num q) t =>
    simp only [entKeys, List.mem_cons, not_or] at h
    simp only [setEntry, NodeList.append1]
    rw [setEntry_fresh t k v h.2]
  | .cons (.str sb) t =>
    simp only [entKeys, List.mem_cons, not_or] at h
    simp only [setEntry, NodeList.append1]
    rw [setEntry_fresh t k v h.2]
  | .cons (.dict es) t =>
    simp only [entKeys, List.mem_cons, not_or] at h
    simp only [setEntry, NodeList.append1]
    rw [setEntry_fresh t k v h.2]
  | .cons (.arr es) t =>
    simp only [entKeys, List.mem_cons, not_or] at h
    simp only [setEntry, NodeList.append1]
    rw [setEntry_fresh t k v h.2]

/-! ## Lemmas: scalar round-trip runs -/

theorem valRun_null : ValRun Node.null := by
  intro dv hg ph hph st hst nodes pos rn d hd rest
  have h1 : stepByte ⟨ph, st, ⟨none, nodes⟩, pos, rn⟩ 110
      = ⟨.inlit [117, 108, 108] true false, st, ⟨none, nodes⟩, pos + 1, rn⟩ := by
    rw [stepByte_valstart ph hph st nodes pos rn 110 (by simp)]
    simp [valueStart, isAllowedWhitespace, isDigitB, strB]
  rw [show outV Node.null ++ d :: rest
        = 110 :: ([117, 108, 108] ++ (d :: rest)) from by simp [outV, strB]]
  rw [runBytes_cons, h1, runBytes_append, run_inlit, run_inlit_pop]
  simp [outV, strB]

theorem valRun_bool (b : Bool) : ValRun (Node.bool b) := by
  intro dv hg ph hph st hst nodes pos rn d hd rest
  cases b with
  | true =>
    have h1 : stepByte ⟨ph, st, ⟨none, nodes⟩, pos, rn⟩ 116
        = ⟨.inlit [114, 117, 101] false true, st, ⟨none, nodes⟩, pos + 1, rn⟩ := by
      rw [stepByte_valstart ph hph st nodes pos rn 116 (by simp)]
      simp [valueStart, isAllowedWhitespace, isDigitB, strB]
    rw [show outV (Node.bool true) ++ d :: rest
          = 116 :: ([114, 117, 101] ++ (d :: rest)) from by simp [outV, strB]]
    rw [runBytes_cons, h1, runBytes_append, run_inlit, run_inlit_pop]
    simp [outV, strB]
  | false =>
    have h1 : stepByte ⟨ph, st, ⟨none, nodes⟩, pos, rn⟩ 102
        = ⟨.inlit [97, 108, 115, 101] false false, st, ⟨none, nodes⟩, pos + 1, rn⟩ := by
      rw [stepByte_valstart ph hph st nodes pos rn 102 (by simp)]
      simp [valueStart, isAllowedWhitespace, isDigitB, strB]
    rw [show outV (Node.bool false) ++ d :: rest
          = 102 :: ([97, 108, 115, 101] ++ (d :: rest)) from by simp [outV, strB]]
    rw [runBytes_cons, h1, runBytes_append, run_inlit, run_inlit_pop]
    simp [outV, strB]

theorem valRun_int (i : Int) : ValRun (Node.int i) := by
  intro dv hg ph hph st hst nodes pos rn d hd rest
  have hrange : minI64 ≤ i ∧ i ≤ maxI64 := by
    simpa [goodV] using hg
  have hcl : classifyInt (intDec i) = some i := classifyInt_intDec i hrange.1 hrange.2
  obtain ⟨dd, ds, hds⟩ : ∃ dd ds, natDec i.natAbs = dd :: ds := by
    rcases hnn : natDec i.natAbs with _ | ⟨dd, ds⟩
    · exact absurd hnn (natDec_ne_nil _)
    · exact ⟨dd, ds, rfl⟩
  have hdig := natDec_digits i.natAbs
  rw [hds] at hdig
  by_cases hneg : i < 0
  · have hout : outV (Node.int i) = 45 :: dd :: ds := by
      simp [outV, intDec, hneg, hds]
    have h1 : stepByte ⟨ph, st, ⟨none, nodes⟩, pos, rn⟩ 45
        = ⟨.innum [45] .sgn false false, st, ⟨none, nodes⟩, pos + 1, rn⟩ := by
      rw [stepByte_valstart ph hph st nodes pos rn 45 (by simp)]
      simp [valueStart, isAllowedWhitespace, isDigitB]
    rw [hout]
    rw [show (45 : Nat) :: dd :: ds ++ d :: rest = 45 :: dd :: (ds ++ (d :: rest)) from by simp]
    rw [runBytes_cons, h1, runBytes_cons,
        stepByte_innum_digit_sgn _ _ _ _ (hdig dd (by simp)),
        runBytes_append, run_innum_digits ds (fun x hx => hdig x (by simp [hx]))]
    have hacc : ([45] ++ [dd]) ++ ds = intDec i := by
      simp [intDec, hneg, hds]
    rw [hacc, run_innum_pop _ i hcl _ _ _ _ _ hd]
    have hpos : pos + 1 + 1 + ds.length = pos + (45 :: dd :: ds).length := by
      simp only [List.length_cons]; omega
    rw [hpos]
  · have hout : outV (Node.int i) = dd :: ds := by
      simp [outV, intDec, hneg, hds]
    have h1 : stepByte ⟨ph, st, ⟨none, nodes⟩, pos, rn⟩ dd
        = ⟨.innum [dd] .ipart false false, st, ⟨none, nodes⟩, pos + 1, rn⟩ := by
      rw [stepByte_valstart ph hph st nodes pos rn dd (by simp [hdig dd (by simp)])]
      have hdd := hdig dd (by simp)
      simp only [isDigitB, Bool.and_eq_true, decide_eq_true_eq] at hdd
      rw [valueStart]
      rw [if_neg (by simp [isAllowedWhitespace]; omega), if_neg (by omega), if_neg (by omega),
          if_neg (by omega), if_neg (by omega), if_pos (by simp [isDigitB]; omega)]
    rw [hout]
    rw [show dd :: ds ++ d :: rest = dd :: (ds ++ (d :: rest)) from by simp]
    rw [runBytes_cons, h1, runBytes_append, run_innum_digits ds (fun x hx => hdig x (by simp [hx]))]
    have hacc : [dd] ++ ds = intDec i := by
      simp [intDec, hneg, hds]
    rw [hacc, run_innum_pop _ i hcl _ _ _ _ _ hd]
    have hpos : pos + 1 + ds.length = pos + (dd :: ds).length := by
      simp only [List.length_cons]; omega
    rw [hpos]

theorem valRun_str (s : List Nat) : ValRun (Node.str s) := by
  intro dv hg ph hph st hst nodes pos rn d hd rest
  have hb : ∀ b ∈ s, b ≤ 255 := by
    simp only [goodV, List.all_eq_true, decide_eq_true_eq] at hg
    exact hg
  have h1 : stepByte ⟨ph, st, ⟨none, nodes⟩, pos, rn⟩ 34
      = ⟨.instr false [] 0, st, ⟨none, nodes⟩, pos + 1, rn⟩ := by
    rw [stepByte_valstart ph hph st nodes pos rn 34 (by simp)]
    simp [valueStart, isAllowedWhitespace]
  have hclose : ∀ p', stepByte ⟨.instr false (escapeStr s) (escCount s), st, ⟨none, nodes⟩, p', rn⟩ 34
      = ⟨afterValPhase st, st, attachCB ⟨none, Node.str s :: nodes⟩, p' + 1,
          afterValNelem st rn⟩ := by
    intro p'
    simp [stepByte, popStringCB_escapeStr _ _ _ _ hb, finishScalar]
  rw [show outV (Node.str s) ++ d :: rest
        = 34 :: (escapeStr s ++ (34 :: (d :: rest))) from by simp [outV]]
  rw [runBytes_cons, h1, runBytes_append, run_instr_body s hb]
  simp only [List.nil_append, Nat.zero_add]
  rw [runBytes_cons, hclose]
  congr 1
  simp [outV, Nat.add_assoc]
  omega

/-! ## The round-trip induction: scanning a serialized good value -/

theorem runValAux : ∀ N : Nat,
    (∀ v : Node, sizeOf v ≤ N → ValRun v)
  ∧ (∀ es : NodeList, sizeOf es ≤ N → ElemsRun es)
  ∧ (∀ es : NodeList, sizeOf es ≤ N → EntriesRun es) := by
  intro N
  induction N with
  | zero =>
    refine ⟨?_, ?_, ?_⟩
    · intro v h; exact absurd h (by cases v <;> simp)
    · intro es h; exact absurd h (by cases es <;> simp)
    · intro es h; exact absurd h (by cases es <;> simp)
  | succ N ih =>
    obtain ⟨ihV, ihL, ihE⟩ := ih
    refine ⟨?_, ?_, ?_⟩
    · -- values
      intro v hsz
      match v with
      | .null => exact valRun_null
      | .bool b => exact valRun_bool b
      | .int i => exact valRun_int i
      | .str s => exact valRun_str s
      | .num q => intro dv hg; exact absurd hg (by simp [goodV])
      | .keyval k w => intro dv hg; exact absurd hg (by simp [goodV])
      | .arr es =>
        intro dv hg ph hph st hst nodes pos rn d hd rest
        cases dv with
        | zero => simp [goodV] at hg
        | succ dA =>
          have hge : goodElems dA es = true := by simpa [goodV] using hg
          have hsz' : sizeOf es ≤ N := by simp at hsz; omega
          have hopen : stepByte ⟨ph, st, ⟨none, nodes⟩, pos, rn⟩ 91
              = ⟨.arrFirst, false :: st, ⟨none, Node.arr .nil :: nodes⟩, pos + 1, rn⟩ := by
            rw [stepByte_valstart ph hph st nodes pos rn 91 (by simp)]
            have hlt : ¬ st.length ≥ maxLevels := by simp [maxLevels] at hst ⊢; omega
            simp [valueStart, isAllowedWhitespace, openContainer, hlt]
          rw [show outV (Node.arr es) ++ d :: rest
                = 91 :: (outList true es ++ 93 :: (d :: rest)) from by simp [outV]]
          rw [runBytes_cons, hopen]
          have hL := ihL es hsz' dA hge true st (by omega) .nil nodes
            (pos + 1) rn (d :: rest)
          simp only [if_true] at hL
          rw [hL, appendAll_nil_left]
          have hpos : pos + 1 + (outList true es).length + 1
              = pos + (outV (Node.arr es)).length := by
            simp only [outV, List.length_append, List.length_cons, List.length_nil]
            omega
          rw [hpos]
      | .dict es =>
        intro dv hg ph hph st hst nodes pos rn d hd rest
        cases dv with
        | zero => simp [goodV] at hg
        | succ dA =>
          have hge : goodEntries dA es = true ∧ nodupKeys (entKeys es) = true := by
            simpa [goodV, Bool.and_eq_true] using hg
          have hsz' : sizeOf es ≤ N := by simp at hsz; omega
          have hopen : stepByte ⟨ph, st, ⟨none, nodes⟩, pos, rn⟩ 123
              = ⟨.objFirst, true :: st, ⟨none, Node.dict .nil :: nodes⟩, pos + 1, rn⟩ := by
            rw [stepByte_valstart ph hph st nodes pos rn 123 (by simp)]
            have hlt : ¬ st.length ≥ maxLevels := by simp [maxLevels] at hst ⊢; omega
            simp [valueStart, isAllowedWhitespace, openContainer, hlt]
          rw [show outV (Node.dict es) ++ d :: rest
                = 123 :: (outList true es ++ 125 :: (d :: rest)) from by simp [outV]]
          rw [runBytes_cons, hopen]
          have hE := ihE es hsz' dA hge.1 hge.2 true st (by omega) .nil
            (fun k _ => by simp [entKeys]) nodes (pos + 1) rn (d :: rest)
          simp only [if_true] at hE
          rw [hE, appendAll_nil_left]
          have hpos : pos + 1 + (outList true es).length + 1
              = pos + (outV (Node.dict es)).length := by
            simp only [outV, List.length_append, List.length_cons, List.length_nil]
            omega
          rw [hpos]
    · -- array bodies
      intro es hsz
      match es with
      | .nil =>
        intro dv hge first st' hst acc nodes pos rn rest
        rw [show outList first NodeList.nil ++ 93 :: rest = 93 :: rest from by simp [outList]]
        rw [runBytes_cons]
        have hclose : stepByte ⟨(if first then .arrFirst else .commaArr), false :: st',
              ⟨none, Node.arr acc :: nodes⟩, pos, rn⟩ 93
            = ⟨afterValPhase st', st', attachCB ⟨none, Node.arr acc :: nodes⟩, pos + 1,
                afterValNelem st' rn⟩ := by
          cases first <;>
            simp [stepByte, stepCore, closeContainer, isAllowedWhitespace]
        rw [hclose]
        simp [outList, NodeList.appendAll]
      | .cons e t =>
        intro dv hge first st' hst acc nodes pos rn rest
        have hgood : goodV dv e = true ∧ goodElems dv t = true := by
          simpa [goodElems, Bool.and_eq_true] using hge
        have hsze : sizeOf e ≤ N := by simp at hsz; omega
        have hszt : sizeOf t ≤ N := by simp at hsz; omega
        obtain ⟨d2, rest2, hd2, hsp⟩ : ∃ d2 rest2, (d2 = 44 ∨ d2 = 93 ∨ d2 = 125) ∧
            outList false t ++ 93 :: rest = d2 :: rest2 := by
          match t with
          | .nil => exact ⟨93, rest, by simp, by simp [outList]⟩
          | .cons e2 t2 =>
            exact ⟨44, outV e2 ++ (outList false t2 ++ 93 :: rest), by simp,
              by simp [outList]⟩
        have hcont : ∀ pos0,
            runBytes ⟨.val, false :: st', ⟨none, Node.arr acc :: nodes⟩, pos0, rn⟩
                (outV e ++ (outList false t ++ 93 :: rest))
              = runBytes ⟨afterValPhase st', st',
                  attachCB ⟨none, Node.arr ((acc.append1 e).appendAll t) :: nodes⟩,
                  pos0 + (outV e).length + (outList false t).length + 1,
                  afterValNelem st' rn⟩ rest := by
          intro pos0
          rw [hsp, ihV e hsze dv hgood.1 .val (Or.inl rfl) (false :: st')
              (by simp; omega) (Node.arr acc :: nodes) pos0 rn d2 hd2 rest2]
          have hat : attachCB ⟨none, e :: Node.arr acc :: nodes⟩
              = ⟨none, Node.arr (acc.append1 e) :: nodes⟩ := rfl
          rw [hat, ← hsp]
          have hL := ihL t hszt dv hgood.2 false st' hst (acc.append1 e) nodes
            (pos0 + (outV e).length) rn rest
          simp only [Bool.false_eq_true, if_false] at hL
          rw [show afterValPhase (false :: st') = Phase.commaArr from rfl,
              show afterValNelem (false :: st') rn = rn from rfl, hL]
        cases first with
        | true =>
          simp only [eq_self_iff_true, if_true]
          rw [show outList true (NodeList.cons e t) ++ 93 :: rest
                = outV e ++ (outList false t ++ 93 :: rest) from by simp [outList]]
          -- enter the first element directly from the array-first phase
          rw [hsp, ihV e hsze dv hgood.1 .arrFirst (Or.inr rfl) (false :: st')
              (by simp; omega) (Node.arr acc :: nodes) pos rn d2 hd2 rest2]
          have hat : attachCB ⟨none, e :: Node.arr acc :: nodes⟩
              = ⟨none, Node.arr (acc.append1 e) :: nodes⟩ := rfl
          rw [hat, ← hsp]
          have hL := ihL t hszt dv hgood.2 false st' hst (acc.append1 e) nodes
            (pos + (outV e).length) rn rest
          simp only [Bool.false_eq_true, if_false] at hL
          rw [show afterValPhase (false :: st') = Phase.commaArr from rfl,
              show afterValNelem (false :: st') rn = rn from rfl, hL]
          have hpos : pos + (outV e).length + (outList false t).length + 1
              = pos + (outList true (NodeList.cons e t)).length + 1 := by
            rw [show outList true (NodeList.cons e t) = outV e ++ outList false t from rfl]
            simp only [List.length_append]
            omega
          rw [hpos]
          simp only [NodeList.appendAll]
        | false =>
          simp only [Bool.false_eq_true, if_false]
          rw [show outList false (NodeList.cons e t) ++ 93 :: rest
                = 44 :: (outV e ++ (outList false t ++ 93 :: rest)) from by simp [outList]]
          rw [runBytes_cons]
          have hcomma : stepByte ⟨.commaArr, false :: st', ⟨none, Node.arr acc :: nodes⟩,
                pos, rn⟩ 44
              = ⟨.val, false :: st', ⟨none, Node.arr acc :: nodes⟩, pos + 1, rn⟩ := by
            simp [stepByte, stepCore, isAllowedWhitespace]
          rw [hcomma, hcont (pos + 1)]
          have hpos : pos + 1 + (outV e).length + (outList false t).length + 1
              = pos + (outList false (NodeList.cons e t)).length + 1 := by
            rw [show outList false (NodeList.cons e t)
                  = 44 :: (outV e ++ outList false t) from rfl]
            simp only [List.length_append, List.length_cons]
            omega
          rw [hpos]
          simp only [NodeList.appendAll]
    · -- object bodies
      intro es hsz
      match es with
      | .nil =>
        intro dv hge hnd first st' hst acc hfresh nodes pos rn rest
        rw [show outList first NodeList.nil ++ 125 :: rest = 125 :: rest from by simp [outList]]
        rw [runBytes_cons]
        have hclose : stepByte ⟨(if first then .objFirst else .commaObj), true :: st',
              ⟨none, Node.dict acc :: nodes⟩, pos, rn⟩ 125
            = ⟨afterValPhase st', st', attachCB ⟨none, Node.dict acc :: nodes⟩, pos + 1,
                afterValNelem st' rn⟩ := by
          cases first <;>
            simp [stepByte, stepCore, closeContainer, isAllowedWhitespace]
        rw [hclose]
        simp [outList, NodeList.appendAll]
      | .cons e t =>
        intro dv hge hnd first st' hst acc hfresh nodes pos rn rest
        match e, hge with
        | .keyval k v, hge =>
        simp only [goodEntries, Bool.and_eq_true] at hge
        obtain ⟨⟨hkb, hgv⟩, hget⟩ := hge
        have hk : ∀ b ∈ k, 32 ≤ b ∧ b ≤ 255 ∧ b ≠ 34 ∧ b ≠ 92 := by
          simpa [goodKeyB, List.all_eq_true] using hkb
        have htw : k.takeWhile (fun c => c ≠ 0) = k :=
          takeWhile_all _ k (fun a ha => by
            have := (hk a ha).1
            simp
            omega)
        simp only [entKeys, nodupKeys, Bool.and_eq_true, decide_eq_true_eq] at hnd
        obtain ⟨hknt, hndt⟩ := hnd
        have hfk : k ∉ entKeys acc := hfresh k (by simp [entKeys])
        have hft : ∀ k2 ∈ entKeys t, k2 ∉ entKeys acc := fun k2 hk2 =>
          hfresh k2 (by simp [entKeys, hk2])
        have hsze : sizeOf v ≤ N := by simp at hsz; omega
        have hszt : sizeOf t ≤ N := by simp at hsz; omega
        obtain ⟨d2, rest2, hd2, hsp⟩ : ∃ d2 rest2, (d2 = 44 ∨ d2 = 93 ∨ d2 = 125) ∧
            outList false t ++ 125 :: rest = d2 :: rest2 := by
          match t with
          | .nil => exact ⟨125, rest, by simp, by simp [outList]⟩
          | .cons e2 t2 =>
            exact ⟨44, outV e2 ++ (outList false t2 ++ 125 :: rest), by simp,
              by simp [outList]⟩
        have hcont : ∀ pos0,
            runBytes ⟨.instr true [] 0, true :: st', ⟨none, Node.dict acc :: nodes⟩, pos0, rn⟩
                (k ++ (34 :: (58 :: (outV v ++ (outList false t ++ 125 :: rest)))))
              = runBytes ⟨afterValPhase st', st',
                  attachCB ⟨none,
                    Node.dict ((acc.append1 (.keyval k v)).appendAll t) :: nodes⟩,
                  pos0 + k.length + 2 + (outV v).length + (outList false t).length + 1,
                  afterValNelem st' rn⟩ rest := by
          intro pos0
          rw [runBytes_append, run_instr_key k (fun c hc => ⟨(hk c hc).1, (hk c hc).2.2.1,
              (hk c hc).2.2.2⟩)]
          simp only [List.nil_append]
          have hqc : stepByte ⟨.instr true k 0, true :: st', ⟨none, Node.dict acc :: nodes⟩,
                pos0 + k.length, rn⟩ 34
              = ⟨.colon, true :: st', ⟨none, Node.keyval k .null :: Node.dict acc :: nodes⟩,
                  pos0 + k.length + 1, rn⟩ := by
            simp [stepByte, popStringCB]
          rw [runBytes_cons, hqc]
          have hcolon : stepByte ⟨.colon, true :: st',
                ⟨none, Node.keyval k .null :: Node.dict acc :: nodes⟩,
                pos0 + k.length + 1, rn⟩ 58
              = ⟨.val, true :: st', ⟨none, Node.keyval k .null :: Node.dict acc :: nodes⟩,
                  pos0 + k.length + 2, rn⟩ := by
            simp [stepByte, stepCore, isAllowedWhitespace]
          rw [runBytes_cons, hcolon]
          rw [hsp, ihV v hsze dv hgv .val (Or.inl rfl) (true :: st')
              (by simp; omega) (Node.keyval k .null :: Node.dict acc :: nodes)
              (pos0 + k.length + 2) rn d2 hd2 rest2]
          have hat : attachCB ⟨none, v :: Node.keyval k .null :: Node.dict acc :: nodes⟩
              = ⟨none, Node.dict (setEntry acc k v) :: nodes⟩ := rfl
          rw [hat, setEntry_fresh acc k v hfk, ← hsp]
          have hfresh2 : ∀ k2 ∈ entKeys t, k2 ∉ entKeys (acc.append1 (.keyval k v)) := by
            intro k2 hk2
            rw [entKeys_append1]
            simp only [List.mem_append, List.mem_singleton, not_or]
            exact ⟨hft k2 hk2, fun heq => hknt (heq ▸ hk2)⟩
          have hE := ihE t hszt dv hget hndt false st' hst (acc.append1 (.keyval k v))
            hfresh2 nodes (pos0 + k.length + 2 + (outV v).length) rn rest
          simp only [Bool.false_eq_true, if_false] at hE
          rw [show afterValPhase (true :: st') = Phase.commaObj from rfl,
              show afterValNelem (true :: st') rn = rn from rfl, hE]
        cases first with
        | true =>
          simp only [eq_self_iff_true, if_true]
          rw [show outList true (NodeList.cons (Node.keyval k v) t) ++ 125 :: rest
                = 34 :: (k ++ (34 :: (58 :: (outV v ++ (outList false t ++ 125 :: rest)))))
              from by
                simp only [outList, outV, eq_self_iff_true, if_true, htw, List.nil_append,
                  List.append_assoc, List.cons_append]]
          rw [runBytes_cons]
          have hq : stepByte ⟨.objFirst, true :: st', ⟨none, Node.dict acc :: nodes⟩,
                pos, rn⟩ 34
              = ⟨.instr true [] 0, true :: st', ⟨none, Node.dict acc :: nodes⟩,
                  pos + 1, rn⟩ := by
            simp [stepByte, stepCore, isAllowedWhitespace]
          rw [hq, hcont (pos + 1)]
          have hpos : pos + 1 + k.length + 2 + (outV v).length + (outList false t).length + 1
              = pos + (outList true (NodeList.cons (Node.keyval k v) t)).length + 1 := by
            rw [show outList true (NodeList.cons (Node.keyval k v) t)
                  = ([34] ++ List.takeWhile (fun c => decide (c ≠ 0)) k ++ [34, 58] ++ outV v)
                    ++ outList false t from rfl, htw]
            simp only [List.length_append, List.length_cons, List.length_nil]
            omega
          rw [hpos]
          simp only [NodeList.appendAll]
        | false =>
          simp only [Bool.false_eq_true, if_false]
          rw [show outList false (NodeList.cons (Node.keyval k v) t) ++ 125 :: rest
                = 44 :: (34 :: (k ++ (34 :: (58 :: (outV v ++
                    (outList false t ++ 125 :: rest))))))
              from by
                simp only [outList, outV, Bool.false_eq_true, if_false, htw, List.nil_append,
                  List.append_assoc, List.cons_append]]
          rw [runBytes_cons]
          have hcm : stepByte ⟨.commaObj, true :: st', ⟨none, Node.dict acc :: nodes⟩,
                pos, rn⟩ 44
              = ⟨.objKey, true :: st', ⟨none, Node.dict acc :: nodes⟩, pos + 1, rn⟩ := by
            simp [stepByte, stepCore, isAllowedWhitespace]
          rw [hcm, runBytes_cons]
          have hq : stepByte ⟨.objKey, true :: st', ⟨none, Node.dict acc :: nodes⟩,
                pos + 1, rn⟩ 34
              = ⟨.instr true [] 0, true :: st', ⟨none, Node.dict acc :: nodes⟩,
                  pos + 2, rn⟩ := by
            simp [stepByte, stepCore, isAllowedWhitespace]
          rw [hq, hcont (pos + 2)]
          have hpos : pos + 2 + k.length + 2 + (outV v).length + (outList false t).length + 1
              = pos + (outList false (NodeList.cons (Node.keyval k v) t)).length + 1 := by
            rw [show outList false (NodeList.cons (Node.keyval k v) t)
                  = 44 :: (([34] ++ List.takeWhile (fun c => decide (c ≠ 0)) k ++ [34, 58]
                      ++ outV v) ++ outList false t) from rfl, htw]
            simp only [List.length_append, List.length_cons, List.length_nil]
            omega
          rw [hpos]
          simp only [NodeList.appendAll]

/-! ## Assembling `CreateNodeFromJSON` on serialized input -/

/-- The leading-whitespace loop stops immediately on a non-whitespace first
byte, having read only offset 0. -/
theorem wsScan_head (buf : Nat → Nat) (len : Nat)
    (h : isAllowedWhitespace (buf 0) = false) : wsScan buf len = (0, [0]) := by
  rw [wsScan, wsScanGo]
  simp [h]

/-- Reading a whole list back through its `getD` buffer. -/
theorem sliceBytes_getD (l : List Nat) : sliceBytes (fun i => l.getD i 0) 0 l.length = l := by
  apply List.ext_getElem
  · simp [sliceBytes]
  · intro i h1 h2
    simp [sliceBytes, List.getD_eq_getElem?_getD, List.getElem?_eq_getElem h2]

/-- `sliceBytes_getD` in the `getElem?` normal form. -/
theorem sliceBytes_getD2 (l : List Nat) :
    sliceBytes (fun i => (l[i]?).getD 0) 0 l.length = l := by
  apply List.ext_getElem
  · simp [sliceBytes]
  · intro i h1 h2
    simp [sliceBytes, List.getElem?_eq_getElem h2]

/-- A good scalar whose serialization starts with a plain non-bracket byte
round-trips through the bare-scalar wrap path of `CreateNodeFromJSON`:
the wrap buffer is allocated and freed, and the sole synthetic array element
comes back. -/
theorem roundtrip_scalar (x : Node) (hsc : ValRun x) (hg : goodV 511 x = true)
    (b0 : Nat) (tail : List Nat) (hout : outV x = b0 :: tail)
    (h33 : 33 ≤ b0) (h255 : b0 ≤ 255) (h123 : b0 ≠ 123) (h91 : b0 ≠ 91) :
    parseBytes (outV x) = ⟨.ok x, true, true, []⟩ := by
  have hbuf0 : (outV x).getD 0 0 = b0 := by rw [hout]; rfl
  have hws : wsScan (fun i => (outV x).getD i 0) (outV x).length = (0, [0]) :=
    wsScan_head _ _ (by rw [hbuf0]; exact not_ws b0 h33 h255)
  have hlen0 : 0 < (outV x).length := by rw [hout]; simp
  have hfeed : feed (91 :: (outV x ++ [93])) = ⟨none, [Node.arr (.cons x .nil)], 0, 1⟩ := by
    have hopen : stepByte initM 91 = ⟨.arrFirst, [false], ⟨none, [Node.arr .nil]⟩, 1, 0⟩ := by
      simp [initM, stepByte, stepCore, openContainer, isAllowedWhitespace, maxLevels]
    rw [feed]
    rw [show (91 :: (outV x ++ [93])) = 91 :: (outV x ++ 93 :: ([] : List Nat)) from by simp]
    rw [runBytes_cons, hopen]
    rw [hsc 511 hg .arrFirst (Or.inr rfl) [false] (by decide) [Node.arr .nil] 1 0 93
        (by simp) []]
    rw [show attachCB ⟨none, x :: [Node.arr .nil]⟩
          = ⟨none, [Node.arr (.cons x .nil)]⟩ from rfl]
    rw [show afterValPhase [false] = Phase.commaArr from rfl,
        show afterValNelem [false] 0 = 0 from rfl]
    rw [runBytes_cons]
    have hclose : stepByte ⟨.commaArr, [false], ⟨none, [Node.arr (.cons x .nil)]⟩,
          1 + (outV x).length, 0⟩ 93
        = ⟨.afterRoot, [], ⟨none, [Node.arr (.cons x .nil)]⟩,
            1 + (outV x).length + 1, 1⟩ := by
      simp [stepByte, stepCore, closeContainer, isAllowedWhitespace, attachCB,
        afterValPhase, afterValNelem]
    rw [hclose, runBytes_nil]
    rfl
  rw [parseBytes, CreateNodeFromJSON]
  simp only [hws, hbuf0]
  rw [show (!(b0 = 123 : Bool) && !(b0 = 91 : Bool) && decide (0 < (outV x).length))
        = true from by simp [h123, h91, hlen0]]
  simp only [if_true, Nat.sub_zero, sliceBytes_getD]
  rw [show (91 :: (outV x ++ [93])) = 91 :: outV x ++ [93] from by simp] at hfeed
  simp only [hfeed]
  rfl

/-- A good dictionary round-trips through the container path (no wrap buffer). -/
theorem roundtrip_dict (es : NodeList) (hg : goodV maxLevels (.dict es) = true) :
    parseBytes (outV (.dict es)) = ⟨.ok (.dict es), false, false, []⟩ := by
  have hge : goodEntries 511 es = true ∧ nodupKeys (entKeys es) = true := by
    simpa [goodV, maxLevels, Bool.and_eq_true] using hg
  have hout : ∃ tl, outV (Node.dict es) = 123 :: tl :=
    ⟨outList true es ++ [125], by simp [outV]⟩
  obtain ⟨tl, hout⟩ := hout
  have hbuf0 : (outV (Node.dict es)).getD 0 0 = 123 := by rw [hout]; rfl
  have hws : wsScan (fun i => (outV (Node.dict es)).getD i 0)
      (outV (Node.dict es)).length = (0, [0]) :=
    wsScan_head _ _ (by rw [hbuf0]; exact not_ws 123 (by omega) (by omega))
  have hfeed : feed (outV (Node.dict es)) = ⟨none, [Node.dict es], 0, 1⟩ := by
    have hopen : stepByte initM 123 = ⟨.objFirst, [true], ⟨none, [Node.dict .nil]⟩, 1, 0⟩ := by
      simp [initM, stepByte, stepCore, openContainer, isAllowedWhitespace, maxLevels]
    rw [feed]
    rw [show outV (Node.dict es) = 123 :: (outList true es ++ 125 :: ([] : List Nat))
          from by simp [outV]]
    rw [runBytes_cons, hopen]
    have hE := (runValAux (sizeOf es)).2.2 es le_rfl 511 hge.1 hge.2 true [] (by decide)
      .nil (fun k hk => by simp [entKeys]) [] 1 0 []
    simp only [eq_self_iff_true, if_true] at hE
    rw [hE, appendAll_nil_left, runBytes_nil]
    rfl
  rw [parseBytes, CreateNodeFromJSON]
  simp only [hws, hbuf0]
  simp [sliceBytes_getD2, hfeed]

/-- A good array round-trips through the container path (no wrap buffer). -/
theorem roundtrip_arr (es : NodeList) (hg : goodV maxLevels (.arr es) = true) :
    parseBytes (outV (.arr es)) = ⟨.ok (.arr es), false, false, []⟩ := by
  have hge : goodElems 511 es = true := by
    simpa [goodV, maxLevels] using hg
  have hout : ∃ tl, outV (Node.arr es) = 91 :: tl :=
    ⟨outList true es ++ [93], by simp [outV]⟩
  obtain ⟨tl, hout⟩ := hout
  have hbuf0 : (outV (Node.arr es)).getD 0 0 = 91 := by rw [hout]; rfl
  have hws : wsScan (fun i => (outV (Node.arr es)).getD i 0)
      (outV (Node.arr es)).length = (0, [0]) :=
    wsScan_head _ _ (by rw [hbuf0]; exact not_ws 91 (by omega) (by omega))
  have hfeed : feed (outV (Node.arr es)) = ⟨none, [Node.arr es], 0, 1⟩ := by
    have hopen : stepByte initM 91 = ⟨.arrFirst, [false], ⟨none, [Node.arr .nil]⟩, 1, 0⟩ := by
      simp [initM, stepByte, stepCore, openContainer, isAllowedWhitespace, maxLevels]
    rw [feed]
    rw [show outV (Node.arr es) = 91 :: (outList true es ++ 93 :: ([] : List Nat))
          from by simp [outV]]
    rw [runBytes_cons, hopen]
    have hL := (runValAux (sizeOf es)).2.1 es le_rfl 511 hge true [] (by decide)
      .nil [] 1 0 []
    simp only [eq_self_iff_true, if_true] at hL
    rw [hL, appendAll_nil_left, runBytes_nil]
    rfl
  rw [parseBytes, CreateNodeFromJSON]
  simp only [hws, hbuf0]
  simp [sliceBytes_getD2, hfeed]

/-- The integral double 2 renders through the zero-decimal-places branch
as the single byte `2`. -/
theorem num2_out : SerializeNodeToJSON (Node.num 2) compactOpt [] = [50] := by
  rw [serialize_compact, List.nil_append]
  have h1 : |((⌊(2:ℚ)⌋ : ℚ)) - 2| ≤ dblEpsilon := by norm_num [dblEpsilon]
  have h2 : |(2:ℚ)| < 10 ^ 60 := by norm_num
  rw [show outV (Node.num 2)
        = (match numBranch 2 with
           | NumFmt.zeroDec => fmtZeroDec 2
           | NumFmt.sci => fmtSci 2
           | NumFmt.fixed17 => fmtFixed17 2) from rfl]
  rw [numBranch, if_pos ⟨h1, h2⟩]
  show intDec (round (2 : ℚ)) = [50]
  rw [show round (2 : ℚ) = 2 from by norm_num [round_eq]]
  rfl

/-- Parsing the compact serialization of any good tree returns the tree. -/
theorem roundtrip_good (x : Node) (hg : goodV maxLevels x = true) :
    (parseBytes (SerializeNodeToJSON x compactOpt [])).result = Except.ok x := by
  rw [serialize_compact, List.nil_append]
  match x with
  | .null =>
    rw [roundtrip_scalar .null valRun_null (by decide) 110 [117, 108, 108] rfl
        (by omega) (by omega) (by omega) (by omega)]
  | .bool true =>
    rw [roundtrip_scalar _ (valRun_bool true) (by decide) 116 [114, 117, 101] rfl
        (by omega) (by omega) (by omega) (by omega)]
  | .bool false =>
    rw [roundtrip_scalar _ (valRun_bool false) (by decide) 102 [97, 108, 115, 101] rfl
        (by omega) (by omega) (by omega) (by omega)]
  | .int i =>
    obtain ⟨dd, ds, hds⟩ : ∃ dd ds, natDec i.natAbs = dd :: ds := by
      rcases hnn : natDec i.natAbs with _ | ⟨dd, ds⟩
      · exact absurd hnn (natDec_ne_nil _)
      · exact ⟨dd, ds, rfl⟩
    have hdig := natDec_digits i.natAbs
    rw [hds] at hdig
    have hdd := hdig dd (by simp)
    simp only [isDigitB, Bool.and_eq_true, decide_eq_true_eq] at hdd
    by_cases hneg : i < 0
    · rw [roundtrip_scalar _ (valRun_int i) hg 45 (natDec i.natAbs)
          (by simp [outV, intDec, hneg]) (by omega) (by omega) (by omega) (by omega)]
    · rw [roundtrip_scalar _ (valRun_int i) hg dd ds
          (by simp [outV, intDec, hneg, hds]) (by omega) (by omega) (by omega) (by omega)]
  | .str s =>
    rw [roundtrip_scalar _ (valRun_str s) hg 34 (escapeStr s ++ [34])
        (by simp [outV]) (by omega) (by omega) (by omega) (by omega)]
  | .num q => exact absurd hg (by simp [goodV])
  | .keyval k v => exact absurd hg (by simp [goodV])
  | .dict es => rw [roundtrip_dict es hg]
  | .arr es => rw [roundtrip_arr es hg]


/-! ## Lemmas: the leading-whitespace loop and whitespace-only input -/

/-- Every index the whitespace loop reads is at most `len`; the read at `len`
itself is the out-of-bounds one. -/
theorem wsScanGo_reads_le (buf : Nat → Nat) (len : Nat) :
    ∀ (fuel off : Nat) (reads : List Nat), off ≤ len → (∀ j ∈ reads, j ≤ len) →
    ∀ i ∈ (wsScanGo buf len fuel off reads).2, i ≤ len := by
  intro fuel
  induction fuel with
  | zero =>
    intro off reads hoff hr i hi
    simp only [wsScanGo] at hi
    rcases List.mem_append.1 hi with h | h
    · exact hr i h
    · simp at h; omega
  | succ fuel ih =>
    intro off reads hoff hr i hi
    simp only [wsScanGo] at hi
    by_cases hc : isAllowedWhitespace (buf off) = true ∧ off < len
    · rw [if_pos hc] at hi
      exact ih (off + 1) _ (by omega) (by
        intro j hj
        rcases List.mem_append.1 hj with h | h
        · exact hr j h
        · simp at h; omega) i hi
    · rw [if_neg hc] at hi
      rcases List.mem_append.1 hi with h | h
      · exact hr i h
      · simp at h; omega

/-- On all-whitespace input the loop runs to `len` exactly. -/
theorem wsScanGo_all (buf : Nat → Nat) (len : Nat)
    (hws : ∀ i, i < len → isAllowedWhitespace (buf i) = true) :
    ∀ (fuel off : Nat) (reads : List Nat), off ≤ len → len - off < fuel →
    (wsScanGo buf len fuel off reads).1 = len := by
  intro fuel
  induction fuel with
  | zero => intro off reads h1 h2; omega
  | succ fuel ih =>
    intro off reads h1 h2
    simp only [wsScanGo]
    by_cases hoff : off < len
    · rw [if_pos ⟨hws off hoff, hoff⟩]
      exact ih (off + 1) _ (by omega) (by omega)
    · rw [if_neg (fun hcc => hoff hcc.2)]
      omega

/-- Whitespace-only input: the scan offset reaches `len`. -/
theorem wsScan_all (buf : Nat → Nat) (len : Nat)
    (hws : ∀ i, i < len → isAllowedWhitespace (buf i) = true) :
    (wsScan buf len).1 = len :=
  wsScanGo_all buf len hws (len + 1) 0 [] (by omega) (by omega)

/-- The scanner ignores whitespace while waiting for the first root byte. -/
theorem run_ws_start (l : List Nat) (h : ∀ b ∈ l, isAllowedWhitespace b = true) :
    ∀ pos, runBytes ⟨.start, [], ⟨none, []⟩, pos, 0⟩ l
      = ⟨.start, [], ⟨none, []⟩, pos + l.length, 0⟩ := by
  induction l with
  | nil => intro pos; simp [runBytes]
  | cons b t ih =>
    intro pos
    rw [runBytes_cons]
    have hb : stepByte ⟨.start, [], ⟨none, []⟩, pos, 0⟩ b
        = ⟨.start, [], ⟨none, []⟩, pos + 1, 0⟩ := by
      simp [stepByte, stepCore, h b (by simp)]
    rw [hb, ih (fun x hx => h x (by simp [hx]))]
    simp [Nat.add_assoc]
    omega

/-- Whitespace-only input takes the not-found error path (no wrap buffer:
the offset has reached the end, so the bare-scalar test fails on its
`off < len` conjunct even though the byte read at `len` is arbitrary). -/
theorem ws_only_not_found (l : List Nat) (h : ∀ b ∈ l, isAllowedWhitespace b = true) :
    parseBytes l = ⟨.error notFoundMsg, false, false, []⟩ := by
  have hbuf : ∀ i, i < l.length → isAllowedWhitespace ((fun i => l.getD i 0) i) = true := by
    intro i hi
    have hg : l.getD i 0 = l[i] := by
      simp [List.getD_eq_getElem?_getD, List.getElem?_eq_getElem hi]
    simp only [hg]
    exact h _ (List.getElem_mem hi)
  have hoff : (wsScan (fun i => l.getD i 0) l.length).1 = l.length :=
    wsScan_all _ _ hbuf
  have hfeed : feed l = ⟨none, [], 0, 0⟩ := by
    rw [feed, show runBytes initM l = ⟨.start, [], ⟨none, []⟩, 0 + l.length, 0⟩
          from run_ws_start l h 0]
    rfl
  rw [parseBytes, CreateNodeFromJSON]
  simp only [hoff]
  simp [sliceBytes_getD2, hfeed, notFoundMsg]

/-- Container input whose containers are not all closed fails with the
unterminated-container message built from `jsn->level`. -/
theorem c7_general (l : List Nat)
    (hfb : l.getD (wsScan (fun i => l.getD i 0) l.length).1 0 = 123
         ∨ l.getD (wsScan (fun i => l.getD i 0) l.length).1 0 = 91)
    (herr : (feed l).err = none) (hlvl : (feed l).level ≠ 0) :
    (parseBytes l).result = Except.error (mkIncompleteMsg (feed l).level) := by
  rw [parseBytes, CreateNodeFromJSON]
  rcases hfb with h | h <;>
  · simp only [h]
    simp [sliceBytes_getD2, herr, hlvl]


/-! ## The claims -/

/-- C1: the round trip as claimed — `parse(serialize(x)) = x` for every tree
without NaN/infinite doubles — is amended: it holds for trees with no doubles
at all, no stray key/value wrappers, dictionary keys that are verbatim-safe
(no `"` or `\` or control bytes, no NUL truncation) and pairwise distinct,
int64-range integers, byte-valued strings, and nesting below the lexer's
fixed 512 levels; `goodV` states exactly these conditions. -/
theorem c1_amended (x : Node) (hg : goodV maxLevels x = true) :
    (parseBytes (SerializeNodeToJSON x compactOpt [])).result = Except.ok x :=
  roundtrip_good x hg

/-- Witness: the amended C1 at the concrete dictionary with key `a` and
integer value 1. -/
theorem c1_amended_witness :
    goodV maxLevels (Node.dict (.cons (.keyval [97] (.int 1)) .nil)) = true
    ∧ (parseBytes (SerializeNodeToJSON
        (Node.dict (.cons (.keyval [97] (.int 1)) .nil)) compactOpt [])).result
      = Except.ok (Node.dict (.cons (.keyval [97] (.int 1)) .nil)) :=
  ⟨by decide, c1_amended _ (by decide)⟩

/-- C1 counterexample to the claim as stated: a dictionary whose key is the
quotation-mark byte is serialized with the key unescaped (`sdscatfmt "%s"`),
so the output does not re-parse; and the integral double 2 re-parses as the
integer 2, not as a double, so the round trip is not the identity even when
parsing succeeds. Neither tree contains a NaN or infinite double. -/
theorem c1_counterexample :
    (parseBytes (SerializeNodeToJSON
        (Node.dict (.cons (.keyval [34] (.int 1)) .nil)) compactOpt [])).result
      = Except.error "ERR JSON lexer error COLON_EXPECTED at position 4"
    ∧ (parseBytes (SerializeNodeToJSON (Node.num 2) compactOpt [])).result
      = Except.ok (Node.int 2) := by
  constructor
  · rfl
  · rw [num2_out]
    rfl

set_option maxRecDepth 16000 in
/-- C2: the pretty-print fixture: parsing `{"a":[1,2]}` and serializing with
indent two spaces, newline LF and space one space yields exactly the fixture
text, following the begin/delimiter/end emission rules. -/
theorem c2_pretty_fixture :
    (parseBytes (strB "\x7b\"a\":[1,2]\x7d")).result
      = Except.ok (Node.dict (.cons (.keyval [97]
          (.arr (.cons (.int 1) (.cons (.int 2) .nil)))) .nil))
    ∧ SerializeNodeToJSON
        (Node.dict (.cons (.keyval [97]
          (.arr (.cons (.int 1) (.cons (.int 2) .nil)))) .nil))
        ⟨strB "  ", strB "\n", strB " "⟩ []
      = strB "\x7b\n  \"a\": [\n    1,\n    2\n  ]\n\x7d" :=
  ⟨rfl, rfl⟩

/-- C3: the int64 boundary — `9223372036854775807` parses to exactly that
integer, `9223372036854775808` fails with the numeric-range error — and the
strict whole-token rule: any integer token with a trailing non-numeric,
non-sign byte is rejected with `JSONSL_ERROR_INVALID_NUMBER`. -/
theorem c3_int64 :
    (parseBytes (strB "9223372036854775807")).result
      = Except.ok (Node.int 9223372036854775807)
    ∧ (parseBytes (strB "9223372036854775808")).result
      = Except.error "ERR JSON lexer error INVALID_NUMBER at position 21"
    ∧ (∀ (ctx : Ctx) (ds : List Nat) (c : Nat) (tl : List Nat) (pos : Nat),
        (∀ x ∈ ds, isDigitB x = true) → isDigitB c = false → c ≠ 45 → c ≠ 43 →
        popNumCB ctx (ds ++ c :: tl) false false pos
          = { ctx with err := some (.invalidNumber, pos) }) := by
  refine ⟨rfl, rfl, ?_⟩
  intro ctx ds c tl pos h2 h3 h4 h5
  rw [popNumCB, classifyInt_trailing ds c tl h2 h3 h4 h5]
  simp

/-- Witness: the whole-token part of C3 on the token `1x`. -/
theorem c3_int64_witness :
    popNumCB {} ([49] ++ 120 :: []) false false 5
      = { err := some (.invalidNumber, 5), nodes := [] } :=
  c3_int64.2.2 {} [49] 120 [] 5 (by decide) (by decide) (by decide) (by decide)

/-- C4: the double-rendering three-way rule of the serializer agrees with the
spec's phrasing for every value: the code's strict `> 1e9` test and the
spec's `≥ 1e9` coincide because a value of magnitude exactly 1e9 is integral
and is already taken by the zero-decimal branch. -/
theorem c4_double_branches (v : ℚ) : numBranch v = numBranchSpec v := by
  rw [numBranch, numBranchSpec]
  by_cases h1 : |(⌊v⌋ : ℚ) - v| ≤ dblEpsilon ∧ |v| < 10 ^ 60
  · rw [if_pos h1, if_pos h1]
  · rw [if_neg h1, if_neg h1]
    have hne : |v| ≠ 10 ^ 9 := by
      intro he
      apply h1
      rcases (abs_eq (by positivity : (0:ℚ) ≤ 10 ^ 9)).1 he with h | h <;> subst h <;>
        constructor <;> norm_num [dblEpsilon]
    have hiff : (|v| < 1 / 10 ^ 6 ∨ |v| > 10 ^ 9) ↔ (|v| < 1 / 10 ^ 6 ∨ |v| ≥ 10 ^ 9) := by
      constructor
      · rintro (h | h)
        · exact Or.inl h
        · exact Or.inr (le_of_lt h)
      · rintro (h | h)
        · exact Or.inl h
        · exact Or.inr (lt_of_le_of_ne h (fun he => hne he.symm))
    rw [if_congr hiff rfl rfl]

set_option maxRecDepth 16000 in
/-- C5: the byte-level escape policy of the serializer agrees with the spec's
phrasing on every byte value, and the two fixtures: the parsed `"a\nb"`
re-serializes with the literal backslash-n, and byte 0x01 serializes as the
four-hex-digit escape `\u0001`. -/
theorem c5_escape_policy :
    (∀ b : Fin 256, escByte b.val = escByteSpec b.val)
    ∧ (parseBytes (strB "\"a\\nb\"")).result = Except.ok (Node.str [97, 10, 98])
    ∧ SerializeNodeToJSON (Node.str [97, 10, 98]) compactOpt [] = strB "\"a\\nb\""
    ∧ SerializeNodeToJSON (Node.str [1]) compactOpt [] = strB "\"\\u0001\"" :=
  ⟨by decide, rfl, rfl, rfl⟩

/-- C6: bare top-level scalars parse through the synthetic `[ ... ]` wrap
(the ledger records the wrap buffer being allocated and freed on these
success paths) and the sole element of the synthetic array is returned. -/
theorem c6_bare_scalars :
    parseBytes (strB "42") = ⟨Except.ok (Node.int 42), true, true, []⟩
    ∧ parseBytes (strB "\"hi\"") = ⟨Except.ok (Node.str [104, 105]), true, true, []⟩
    ∧ parseBytes (strB "true") = ⟨Except.ok (Node.bool true), true, true, []⟩ :=
  ⟨rfl, rfl, rfl⟩

/-- C7: container input whose containers are not all closed at end of input
fails, returning no tree, with exactly the message
`ERR JSON value incomplete - <n> containers unterminated` for `n` still-open
containers (`jsn->level`). -/
theorem c7_incomplete (l : List Nat)
    (hfb : l.getD (wsScan (fun i => l.getD i 0) l.length).1 0 = 123
         ∨ l.getD (wsScan (fun i => l.getD i 0) l.length).1 0 = 91)
    (herr : (feed l).err = none) (hlvl : (feed l).level ≠ 0) :
    (parseBytes l).result = Except.error (mkIncompleteMsg (feed l).level) :=
  c7_general l hfb herr hlvl

/-- Witness: C7 on the input `{` — exactly 1 unterminated container. -/
theorem c7_incomplete_witness :
    (feed (strB "\x7b")).err = none ∧ (feed (strB "\x7b")).level = 1
    ∧ (parseBytes (strB "\x7b")).result
      = Except.error "ERR JSON value incomplete - 1 containers unterminated" :=
  ⟨rfl, rfl, c7_incomplete (strB "\x7b") (Or.inl rfl) rfl (by decide)⟩

/-- C8: input consisting only of allowed whitespace bytes fails with the
empty-input error and returns no tree. -/
theorem c8_whitespace_only (l : List Nat) (h : ∀ b ∈ l, isAllowedWhitespace b = true) :
    (parseBytes l).result = Except.error notFoundMsg := by
  rw [ws_only_not_found l h]

/-- Witness: C8 on the four allowed whitespace bytes. -/
theorem c8_whitespace_only_witness :
    (∀ b ∈ strB " \t\n\r", isAllowedWhitespace b = true)
    ∧ (parseBytes (strB " \t\n\r")).result = Except.error "ERR JSON value not found" :=
  ⟨by decide, c8_whitespace_only _ (by decide)⟩

/-- C9: the resource claim fails in the code — on the error return for the
bare-scalar input `x` the synthetic wrap buffer has been allocated but the
`error:` label frees only the node stack (the ledger shows the freed stack
nodes), never the wrap buffer, contradicting the spec's requirement that the
wrap buffer is always freed. -/
theorem c9_wrap_leak :
    (parseBytes (strB "x")).wrapAllocated = true
    ∧ (parseBytes (strB "x")).wrapFreed = false
    ∧ (parseBytes (strB "x")).result
      = Except.error "ERR JSON lexer error SPECIAL_EXPECTED at position 2"
    ∧ (parseBytes (strB "x")).freedOnError = [Node.arr .nil] :=
  ⟨rfl, rfl, rfl, rfl⟩

/-- C10: amended bounds for the leading-whitespace loop — every index it
reads is at most `len` (not strictly below): the loop tests the byte before
the bound, so the read at index `len` itself does occur at input end. -/
theorem c10_amended (buf : Nat → Nat) (len : Nat) (i : Nat)
    (hi : i ∈ (wsScan buf len).2) : i ≤ len := by
  rw [wsScan] at hi
  exact wsScanGo_reads_le buf len (len + 1) 0 [] (by omega) (by simp) i hi

/-- Witness: the amended C10 read bound at the empty input. -/
theorem c10_amended_witness : (0 ∈ (wsScan (fun _ => 0) 0).2) ∧ 0 ≤ 0 :=
  ⟨by decide, c10_amended (fun _ => 0) 0 0 (by decide)⟩

/-- C10 counterexample to the claim as stated: the loop does read the byte at
offset `_len` — on the empty input it reads index 0 = `_len`, and on a
two-byte all-whitespace input it reads indexes 0, 1 and the out-of-bounds 2. -/
theorem c10_counterexample :
    (wsScan (fun _ => 0) 0).2 = [0]
    ∧ (wsScan (fun _ => 32) 2).2 = [0, 1, 2] :=
  ⟨rfl, rfl⟩

end JsonObj
